import Mathlib

/-!
# nginxc: a builder and serializer for nginx configuration trees

A shallow embedding of `lib/nginxc.js`.

* JavaScript strings are `String`; `Array.prototype.join` is `String.intercalate`.
* A directive value is a string or a number.  The safe integers (`768`, `65`, `2048` in
  `example.js`) are printed in plain decimal; every other number is carried as the text
  the runtime prints for it.
* A `Clause` value is the state of one object whose prototype chain contains
  `Clause.prototype`: its class (`Clause`, `Location` or `NginxConfig`, with the extra
  field of the subclass) and the three fields of `__CLAUSE__`.
* The builder methods mutate `this` and return it; here they take the state of `this`
  and return the new state.  A callback is given the fresh child and hands back the
  state it left the child in; `Clause.clauseReentrant` and `Clause.locationReentrant`
  are the same methods for a callback that also acts on the receiver.
* `throw new Error('Fatal.')` is `Except.error "Fatal."`.
-/

namespace Nginxc

/-! ## Constants and the indentation helper -/

/-- Character used when indenting (line 28). -/
def INDENT_CHARACTER : String := " "

/-- Number of indent characters per depth level (line 36). -/
def INDENT_MULTIPLIER : Nat := 2

/-- Line 44: `new Array(d * INDENT_MULTIPLIER).fill(INDENT_CHARACTER).join('')`. -/
def depthToWhitespace (d : Nat) : String :=
  String.intercalate "" (List.replicate (d * INDENT_MULTIPLIER) INDENT_CHARACTER)

/-! ## Directive -/

/-- A directive value, as the template literal of line 82 sees it: a string; a number
that is a safe integer (magnitude below 2^53), which `Number::toString` prints in plain
decimal; or any other number (a fraction, a larger magnitude, NaN, an infinity),
carried as the text `Number::toString` gives it.  That text comes from the JavaScript
runtime, not from this repository, and is not computed here. -/
inductive Value where
  | str (s : String)
  | num (n : Int) (safe : n.natAbs < 2 ^ 53 := by decide)
  | float (text : String)
  deriving DecidableEq, Repr

/-- Text of a value inside a template literal: a string is itself, a safe integer is its
decimal form, any other number is the text the runtime gives it. -/
def Value.text : Value → String
  | .str s => s
  | .num n _ => toString n
  | .float text => text

/-- The fields of `__DIRECTIVE__` (lines 57-61). -/
structure Directive where
  name : String
  value : Value
  deriving DecidableEq, Repr

/-- Line 82: the template literal with name, a space, value and a semicolon. -/
def Directive.toString (self : Directive) : String :=
  self.name ++ " " ++ self.value.text ++ ";"

/-! ## Clause, Location, NginxConfig -/

/-- The class an object was constructed by, with the field its constructor adds:
`__LOCATION__.path` for a Location, `__NGINX_CONFIG__.filename` for a NginxConfig
(`none` when the constructor got no argument). -/
inductive Cls where
  | clause
  | location (path : String)
  | nginxConfig (filename : Option String)
  deriving DecidableEq, Repr

mutual
/-- An instance of `Clause` or of one of its subclasses: class, then `__CLAUSE__.name`,
`__CLAUSE__.depth` and `__CLAUSE__.entries`. -/
inductive Clause where
  | mk (cls : Cls) (name : String) (depth : Nat) (entries : List Entry)
/-- An element of an `entries` array: an instance of Directive, an instance of Clause
(Location included, since Location extends Clause), or any other value. -/
inductive Entry where
  | directive (d : Directive)
  | clause (c : Clause)
  | foreign
end

/-- Class of the object. -/
def Clause.cls : Clause → Cls
  | .mk c _ _ _ => c

/-- Getter `name` (line 107). -/
def Clause.name : Clause → String
  | .mk _ n _ _ => n

/-- Getter `depth` (line 114). -/
def Clause.depth : Clause → Nat
  | .mk _ _ d _ => d

/-- The array `__CLAUSE__.entries`. -/
def Clause.entries : Clause → List Entry
  | .mk _ _ _ es => es

/-- Whether the object is an instance of Location. -/
def Clause.isLocation (self : Clause) : Bool :=
  match self.cls with
  | .location _ => true
  | _ => false

/-- Constructor of Clause (lines 96-100): no entries yet. -/
def Clause.new (name : String) (depth : Nat) : Clause :=
  .mk .clause name depth []

/-- Constructor of Location (lines 214-220): the name is the word location, a space
and the path.  The `delete this.location` of line 219 is treated in `Cls.ownKeys`. -/
def Location.new (path : String) (depth : Nat) : Clause :=
  .mk (.location path) ("location " ++ path) depth []

/-- Constructor of NginxConfig (lines 257-262): `super('root')`, so depth takes its
default 0. -/
def NginxConfig.new (filename : Option String) : Clause :=
  .mk (.nginxConfig filename) "root" 0 []

/-- Lines 265-267: the exported factory, `new NginxConfig()` without a filename. -/
def createInstance : Clause :=
  NginxConfig.new none

/-- The call `this.__CLAUSE__.entries.push(e)`. -/
def Clause.push : Clause → Entry → Clause
  | .mk c n d es, e => .mk c n d (es ++ [e])

/-- Method `clause` (lines 122-127). -/
def Clause.clause (self : Clause) (name : String) (callback : Clause → Clause) : Clause :=
  let clause := Clause.new name (self.depth + 1)
  let clause := callback clause
  self.push (.clause clause)

/-- Method `directive` (lines 135-138). -/
def Clause.directive (self : Clause) (name : String) (value : Value) : Clause :=
  self.push (.directive ⟨name, value⟩)

/-- Method `location` (lines 146-151). -/
def Clause.location (self : Clause) (path : String) (callback : Clause → Clause) : Clause :=
  let clause := Location.new path (self.depth + 1)
  let clause := callback clause
  self.push (.clause clause)

/-- Alias `cl` (line 159). -/
def Clause.cl (self : Clause) (name : String) (callback : Clause → Clause) : Clause :=
  self.clause name callback

/-- Alias `dir` (line 167). -/
def Clause.dir (self : Clause) (name : String) (value : Value) : Clause :=
  self.directive name value

/-- Alias `loc` (line 175). -/
def Clause.loc (self : Clause) (path : String) (callback : Clause → Clause) : Clause :=
  self.location path callback

/-! ## Builder methods with a callback that reaches the receiver -/

/-- Method `clause` (lines 122-127) for any callback.  The callback of line 124 runs
with the fresh child as argument and the receiver within reach, before the push of
line 125: it takes the states of the receiver and of the child and hands both back, and
the child is pushed onto the receiver as the callback left it.  `Clause.clause` is the
case of a callback that leaves the receiver as it was. -/
def Clause.clauseReentrant (self : Clause) (name : String)
    (callback : Clause → Clause → Clause × Clause) : Clause :=
  let clause := Clause.new name (self.depth + 1)
  let after := callback self clause
  after.1.push (.clause after.2)

/-- Method `location` (lines 146-151) for any callback, as `Clause.clauseReentrant`. -/
def Clause.locationReentrant (self : Clause) (path : String)
    (callback : Clause → Clause → Clause × Clause) : Clause :=
  let clause := Location.new path (self.depth + 1)
  let after := callback self clause
  after.1.push (.clause after.2)

/-- The callback of `nc.clause('a', c => { nc.directive('x', 'y') })`: it calls
`directive` on the receiver and leaves the child as it is. -/
def Reentrant.callback (receiver child : Clause) : Clause × Clause :=
  (receiver.directive "x" (.str "y"), child)

/-! ## Rendering -/

mutual
/-- Method `Clause.prototype.toString` (lines 182-199). -/
def Clause.toString : Clause → Except String String
  | .mk _ _ depth entries =>
    let ws := depthToWhitespace depth
    let spacer := if depth ≤ 1 then "\n" else ""
    (Clause.toString.forEach spacer ws entries).map (String.intercalate "\n")
/-- Method `Location.prototype.toString` (lines 227-243). -/
def Location.toString : Clause → Except String String
  | .mk _ _ depth entries =>
    let ws := depthToWhitespace depth
    (Location.toString.forEach ws entries).map (String.intercalate "\n")
/-- The loop of lines 187-197; the value is the array `result` after it. -/
def Clause.toString.forEach (spacer ws : String) : List Entry → Except String (List String)
  | [] => .ok []
  | entry :: rest =>
    match Clause.toString.callback spacer ws entry with
    | .error err => .error err
    | .ok text => (Clause.toString.forEach spacer ws rest).map (fun result => text :: result)
/-- The loop of lines 231-241; the value is the array `result` after it. -/
def Location.toString.forEach (ws : String) : List Entry → Except String (List String)
  | [] => .ok []
  | entry :: rest =>
    match Location.toString.callback ws entry with
    | .error err => .error err
    | .ok text => (Location.toString.forEach ws rest).map (fun result => text :: result)
/-- Body of the arrow function of lines 187-197: the string pushed for one entry.  An
instance of Location is an instance of Clause, so the second branch takes every block;
`entry.toString()` runs the method of the entry's own class. -/
def Clause.toString.callback (spacer ws : String) : Entry → Except String String
  | .directive d => .ok (ws ++ d.toString)
  | .clause entry =>
    (match entry.isLocation with
      | true => Location.toString entry
      | false => Clause.toString entry).map
      (fun body => spacer ++ ws ++ entry.name ++ " \x7b\n" ++ body ++ "\n" ++ ws ++ "\x7d")
  | .foreign => .error "Fatal."
/-- Body of the arrow function of lines 231-241: as above, without the spacer. -/
def Location.toString.callback (ws : String) : Entry → Except String String
  | .directive d => .ok (ws ++ d.toString)
  | .clause entry =>
    (match entry.isLocation with
      | true => Location.toString entry
      | false => Clause.toString entry).map
      (fun body => ws ++ entry.name ++ " \x7b\n" ++ body ++ "\n" ++ ws ++ "\x7d")
  | .foreign => .error "Fatal."
end

/-- The call `self.toString()`: a Location runs `Location.prototype.toString`, a Clause
and a NginxConfig run `Clause.prototype.toString`. -/
def Clause.render (self : Clause) : Except String String :=
  match self.isLocation with
  | true => Location.toString self
  | false => Clause.toString self

/-- The string that `self.toString()` pushes for the entry `e`. -/
def Clause.emit (self : Clause) (e : Entry) : Except String String :=
  match self.isLocation with
  | true => Location.toString.callback (depthToWhitespace self.depth) e
  | false =>
    Clause.toString.callback (if self.depth ≤ 1 then "\n" else "")
      (depthToWhitespace self.depth) e

/-- The array `result` that `self.toString()` joins at the end. -/
def Clause.lines (self : Clause) : Except String (List String) :=
  match self.isLocation with
  | true => Location.toString.forEach (depthToWhitespace self.depth) self.entries
  | false =>
    Clause.toString.forEach (if self.depth ≤ 1 then "\n" else "")
      (depthToWhitespace self.depth) self.entries

/-! ## Property lookup on a Location instance -/

/-- Names of the properties that the class body of Clause puts on `Clause.prototype`
(lines 89-200). -/
def Clause.prototype : List String :=
  ["constructor", "name", "depth", "clause", "directive", "location", "cl", "dir", "loc",
    "toString"]

/-- Names of the properties on `Location.prototype` (lines 207-244). -/
def Location.prototype : List String :=
  ["constructor", "toString"]

/-- Names of the properties on `NginxConfig.prototype` (lines 250-263). -/
def NginxConfig.prototype : List String :=
  ["constructor"]

/-- Own property keys of an instance when its constructor returns: the keys given to
`Object.defineProperty`, and for a Location the effect of `delete this.location`
(line 219), which removes an own property of that name and nothing else. -/
def Cls.ownKeys : Cls → List String
  | .clause => ["__CLAUSE__"]
  | .location _ => (["__CLAUSE__", "__LOCATION__"]).erase "location"
  | .nginxConfig _ => ["__CLAUSE__", "__NGINX_CONFIG__"]

/-- Prototype chain of an instance, nearest prototype first. -/
def Cls.prototypeChain : Cls → List (List String)
  | .clause => [Clause.prototype]
  | .location _ => [Location.prototype, Clause.prototype]
  | .nginxConfig _ => [NginxConfig.prototype, Clause.prototype]

/-- Whether the lookup `self[key]` finds a property: own keys first, then the chain. -/
def Clause.has (self : Clause) (key : String) : Bool :=
  self.cls.ownKeys.contains key || self.cls.prototypeChain.any (fun proto => proto.contains key)

/-- The call `self.location(path, callback)` made by a user of the library: a TypeError
when the lookup finds nothing, the method of lines 146-151 otherwise. -/
def Clause.callLocation (self : Clause) (path : String) (callback : Clause → Clause) :
    Except String Clause :=
  if self.has "location" then .ok (self.location path callback)
  else .error "TypeError: self.location is not a function"

/-- The call `self.loc(path, callback)` made by a user of the library; line 175 then
calls `this.location(path, callback)`. -/
def Clause.callLoc (self : Clause) (path : String) (callback : Clause → Clause) :
    Except String Clause :=
  if self.has "loc" then self.callLocation path callback
  else .error "TypeError: self.loc is not a function"

/-! ## Configure callbacks written with the builder methods -/

/-- One builder call made on the clause a callback is given; a callback is the list of
the calls it makes, in order. -/
inductive Op where
  | clause (name : String) (callback : List Op)
  | directive (name : String) (value : Value)
  | location (path : String) (callback : List Op)
  | cl (name : String) (callback : List Op)
  | dir (name : String) (value : Value)
  | loc (path : String) (callback : List Op)

mutual
/-- Run one builder call on `self`. -/
def Op.run : Op → Clause → Clause
  | .clause name callback, self => self.clause name (Op.runAll callback)
  | .directive name value, self => self.directive name value
  | .location path callback, self => self.location path (Op.runAll callback)
  | .cl name callback, self => self.cl name (Op.runAll callback)
  | .dir name value, self => self.dir name value
  | .loc path callback, self => self.loc path (Op.runAll callback)
/-- Run a chain of builder calls on `self`, first call first. -/
def Op.runAll : List Op → Clause → Clause
  | [], self => self
  | op :: ops, self => Op.runAll ops (Op.run op self)
end

/-! ## The blocks of a tree -/

mutual
/-- The block `self` and every block below it, in document order. -/
def Clause.blocks : Clause → List Clause
  | .mk c n d es => .mk c n d es :: Entry.blocksOfList es
/-- The blocks in and below a list of entries. -/
def Entry.blocksOfList : List Entry → List Clause
  | [] => []
  | e :: es => Entry.blocks e ++ Entry.blocksOfList es
/-- The blocks in and below one entry. -/
def Entry.blocks : Entry → List Clause
  | .directive _ => []
  | .clause c => Clause.blocks c
  | .foreign => []
end

/-! ## Properties of trees and the examples used below -/

deriving instance DecidableEq for Except

/-- The depth rule below `c`: every block that is an entry of a block of the tree is one
level deeper than the block that owns it. -/
def Clause.DepthRule (c : Clause) : Prop :=
  ∀ owner ∈ c.blocks, ∀ child : Clause,
    Entry.clause child ∈ owner.entries → child.depth = owner.depth + 1

/-- The clause added inside the location of `Spacer.document`. -/
def Spacer.child : Clause :=
  .mk .clause "if ($bad)" 2 [.directive ⟨"return", .num 403⟩]

/-- The location of `Spacer.document`, at depth 1. -/
def Spacer.parent : Clause :=
  .mk (.location "/") "location /" 1 [.clause Spacer.child]

/-- The document built by
`nginxc().location('/', l => l.clause('if ($bad)', c => c.directive('return', 403)))`. -/
def Spacer.document : Clause :=
  createInstance.location "/" (fun l => l.clause "if ($bad)" (fun c => c.directive "return" (.num 403)))

/-- The calls of a callback that nests a location in a server in the http clause. -/
def Nesting.ops : List Op :=
  [.clause "http" [.cl "server" [.location "/" [.dir "index" (.str "index.html")]]]]

/-- The location that `Nesting.ops` builds, at depth 3. -/
def Nesting.location : Clause :=
  .mk (.location "/") "location /" 3 [.directive ⟨"index", .str "index.html"⟩]

/-- The server clause that `Nesting.ops` builds, at depth 2. -/
def Nesting.server : Clause :=
  .mk .clause "server" 2 [.clause Nesting.location]

/-- The events clause of `example.js`, as a child of the document. -/
def Events.clause : Clause :=
  .mk .clause "events" 1 [.directive ⟨"worker_connections", .num 768⟩]

/-! ## Rendering with the state of the tree passed along -/

mutual
/-- Method `Clause.prototype.toString` (lines 182-199) with the state of `this` passed
along: the string returned, and the state of `this` when the method returns. -/
def Clause.toStringState : Clause → Except String (String × Clause)
  | .mk cls name depth entries =>
    let ws := depthToWhitespace depth
    let spacer := if depth ≤ 1 then "\n" else ""
    (Clause.toStringState.forEach spacer ws entries).map
      (fun r => (String.intercalate "\n" r.1, Clause.mk cls name depth r.2))
/-- Method `Location.prototype.toString` (lines 227-243) with the state of `this` passed
along. -/
def Location.toStringState : Clause → Except String (String × Clause)
  | .mk cls name depth entries =>
    let ws := depthToWhitespace depth
    (Location.toStringState.forEach ws entries).map
      (fun r => (String.intercalate "\n" r.1, Clause.mk cls name depth r.2))
/-- The loop of lines 187-197: the array `result` and the entries after it. -/
def Clause.toStringState.forEach (spacer ws : String) :
    List Entry → Except String (List String × List Entry)
  | [] => .ok ([], [])
  | entry :: rest =>
    match Clause.toStringState.callback spacer ws entry with
    | .error err => .error err
    | .ok (text, entry) =>
      (Clause.toStringState.forEach spacer ws rest).map (fun r => (text :: r.1, entry :: r.2))
/-- The loop of lines 231-241: the array `result` and the entries after it. -/
def Location.toStringState.forEach (ws : String) :
    List Entry → Except String (List String × List Entry)
  | [] => .ok ([], [])
  | entry :: rest =>
    match Location.toStringState.callback ws entry with
    | .error err => .error err
    | .ok (text, entry) =>
      (Location.toStringState.forEach ws rest).map (fun r => (text :: r.1, entry :: r.2))
/-- Body of the arrow function of lines 187-197: the string pushed for the entry and
the state of the entry afterwards; `entry.name` is read before `entry.toString()` runs. -/
def Clause.toStringState.callback (spacer ws : String) : Entry → Except String (String × Entry)
  | .directive d => .ok (ws ++ d.toString, .directive d)
  | .clause entry =>
    (match entry.isLocation with
      | true => Location.toStringState entry
      | false => Clause.toStringState entry).map
      (fun (r : String × Clause) =>
        (spacer ++ ws ++ entry.name ++ " \x7b\n" ++ r.1 ++ "\n" ++ ws ++ "\x7d", Entry.clause r.2))
  | .foreign => .error "Fatal."
/-- Body of the arrow function of lines 231-241, with the state of the entry. -/
def Location.toStringState.callback (ws : String) : Entry → Except String (String × Entry)
  | .directive d => .ok (ws ++ d.toString, .directive d)
  | .clause entry =>
    (match entry.isLocation with
      | true => Location.toStringState entry
      | false => Clause.toStringState entry).map
      (fun (r : String × Clause) =>
        (ws ++ entry.name ++ " \x7b\n" ++ r.1 ++ "\n" ++ ws ++ "\x7d", Entry.clause r.2))
  | .foreign => .error "Fatal."
end

/-- The call `self.toString()` with the state of `self` passed along. -/
def Clause.renderState (self : Clause) : Except String (String × Clause) :=
  match self.isLocation with
  | true => Location.toStringState self
  | false => Clause.toStringState self

/-- Both methods, run with the state passed along on `c`, give the string of the pure
method and the state `c` itself. -/
def Clause.ReadOnly (c : Clause) : Prop :=
  Clause.toStringState c = (Clause.toString c).map (fun s => (s, c)) ∧
  Location.toStringState c = (Location.toString c).map (fun s => (s, c))

/-! ## More properties of trees -/

/-- Whether the entry is neither a Directive nor an instance of Clause. -/
def Entry.isForeign : Entry → Bool
  | .directive _ => false
  | .clause _ => false
  | .foreign => true

/-- Every entry of every block of the tree is a Directive or an instance of Clause. -/
def Clause.NoForeign (c : Clause) : Prop :=
  ∀ b ∈ c.blocks, ∀ e ∈ b.entries, e.isForeign = false

instance (c : Clause) : Decidable c.NoForeign :=
  inferInstanceAs (Decidable (∀ b ∈ c.blocks, ∀ e ∈ b.entries, e.isForeign = false))

/-- Whether the character is absent from what the entry contributes of its own to a
rendering: name and value of a directive, name of a block (for a Location the word
location, a space and the path). -/
def Entry.avoids (ch : Char) : Entry → Bool
  | .directive d => !(d.name.data.contains ch) && !(d.value.text.data.contains ch)
  | .clause c => !(c.name.data.contains ch)
  | .foreign => true

/-- The character occurs in no name and no value below the block `c`. -/
def Clause.Avoids (ch : Char) (c : Clause) : Prop :=
  ∀ b ∈ c.blocks, ∀ e ∈ b.entries, e.avoids ch = true

instance (ch : Char) (c : Clause) : Decidable (c.Avoids ch) :=
  inferInstanceAs (Decidable (∀ b ∈ c.blocks, ∀ e ∈ b.entries, e.avoids ch = true))

/-- Every non-empty line of the text, split at the newlines, starts with at least `k`
spaces. -/
def IndentedBy (k : Nat) (text : List Char) : Prop :=
  ∀ line ∈ text.splitOn '\n', line ≠ [] → List.replicate k ' ' <+: line

/-- The chain of builder calls of a cut-down `example.js`: a directive, the events
clause, and the http clause with a server that holds a location. -/
def Sample.ops : List Op :=
  [.dir "user" (.str "ascari"),
   .cl "events" [.directive "worker_connections" (.num 768)],
   .clause "http"
     [.directive "sendfile" (.str "on"),
      .clause "server"
        [.directive "listen" (.str "80"),
         .location "/" [.directive "index" (.str "index.html")]]]]

/-- The document that `Sample.ops` builds. -/
def Sample.document : Clause :=
  Op.runAll Sample.ops createInstance

/-- The http clause of `Sample.document`, as its callback leaves it, at depth 1. -/
def Sample.http : Clause :=
  Op.runAll
    [.directive "sendfile" (.str "on"),
     .clause "server"
       [.directive "listen" (.str "80"),
        .location "/" [.directive "index" (.str "index.html")]]]
    (Clause.new "http" 1)

/-- The text of `Sample.http`. -/
def Sample.httpText : String :=
  "  sendfile on;\n\n  server \x7b\n    listen 80;\n    location / \x7b\n      index index.html;\n    \x7d\n  \x7d"

/-- The text of `Sample.document`. -/
def Sample.text : String :=
  "user ascari;\n\nevents \x7b\n  worker_connections 768;\n\x7d\n\nhttp \x7b\n  sendfile on;\n\n  server \x7b\n    listen 80;\n    location / \x7b\n      index index.html;\n    \x7d\n  \x7d\n\x7d"

/-! ## Lemmas on strings -/

theorem intercalate_go_replicate (n : Nat) (acc : String) :
    String.intercalate.go acc "" (List.replicate n " ") =
      acc ++ String.mk (List.replicate n ' ') := by
  induction n generalizing acc with
  | zero => exact (String.append_empty acc).symm
  | succ n ih =>
    rw [List.replicate_succ, String.intercalate.go, ih]
    apply String.ext
    simp [String.data_append, List.replicate_succ]

theorem depthToWhitespace_eq (d : Nat) :
    depthToWhitespace d = String.mk (List.replicate (2 * d) ' ') := by
  unfold depthToWhitespace INDENT_MULTIPLIER INDENT_CHARACTER
  rw [Nat.mul_comm]
  cases h : 2 * d with
  | zero => rfl
  | succ n =>
    rw [List.replicate_succ, String.intercalate, intercalate_go_replicate]
    apply String.ext
    simp [String.data_append, List.replicate_succ]

theorem intercalate_singleton (sep s : String) : String.intercalate sep [s] = s := rfl

/-! ## Lemmas on rendering -/

theorem Clause.toString.forEach_ok_iff (spacer ws : String) (es : List Entry)
    (ls : List String) :
    Clause.toString.forEach spacer ws es = .ok ls ↔
      List.Forall₂ (fun e t => Clause.toString.callback spacer ws e = .ok t) es ls := by
  induction es generalizing ls with
  | nil =>
    rw [Clause.toString.forEach]
    constructor
    · intro h
      cases h
      exact List.Forall₂.nil
    · intro h
      cases h
      rfl
  | cons e es ih =>
    rw [Clause.toString.forEach]
    cases hc : Clause.toString.callback spacer ws e with
    | error err =>
      constructor
      · intro h
        cases h
      · intro h
        cases h with
        | cons h1 _ => rw [hc] at h1; cases h1
    | ok text =>
      cases hr : Clause.toString.forEach spacer ws es with
      | error err =>
        constructor
        · intro h
          cases h
        · intro h
          cases h with
          | cons _ h2 => rw [← ih] at h2; rw [hr] at h2; cases h2
      | ok rest =>
        constructor
        · intro h
          cases h
          exact List.Forall₂.cons hc ((ih rest).mp hr)
        · intro h
          cases h with
          | cons h1 h2 =>
            rw [hc] at h1
            cases h1
            rw [← ih] at h2
            rw [hr] at h2
            cases h2
            rfl

theorem Location.toString.forEach_location_ok_iff (ws : String) (es : List Entry)
    (ls : List String) :
    Location.toString.forEach ws es = .ok ls ↔
      List.Forall₂ (fun e t => Location.toString.callback ws e = .ok t) es ls := by
  induction es generalizing ls with
  | nil =>
    rw [Location.toString.forEach]
    constructor
    · intro h
      cases h
      exact List.Forall₂.nil
    · intro h
      cases h
      rfl
  | cons e es ih =>
    rw [Location.toString.forEach]
    cases hc : Location.toString.callback ws e with
    | error err =>
      constructor
      · intro h
        cases h
      · intro h
        cases h with
        | cons h1 _ => rw [hc] at h1; cases h1
    | ok text =>
      cases hr : Location.toString.forEach ws es with
      | error err =>
        constructor
        · intro h
          cases h
        · intro h
          cases h with
          | cons _ h2 => rw [← ih] at h2; rw [hr] at h2; cases h2
      | ok rest =>
        constructor
        · intro h
          cases h
          exact List.Forall₂.cons hc ((ih rest).mp hr)
        · intro h
          cases h with
          | cons h1 h2 =>
            rw [hc] at h1
            cases h1
            rw [← ih] at h2
            rw [hr] at h2
            cases h2
            rfl

theorem Clause.render_eq_lines (c : Clause) :
    c.render = c.lines.map (String.intercalate "\n") := by
  cases c with
  | mk cls n d es =>
    cases cls <;> simp [Clause.render, Clause.lines, Clause.isLocation, Clause.cls,
      Clause.depth, Clause.entries, Clause.toString, Location.toString]

theorem Clause.lines_ok_iff (c : Clause) (ls : List String) :
    c.lines = .ok ls ↔ List.Forall₂ (fun e t => c.emit e = .ok t) c.entries ls := by
  cases hl : c.isLocation with
  | true =>
    simp only [Clause.lines, Clause.emit, hl]
    exact Location.toString.forEach_location_ok_iff _ _ _
  | false =>
    simp only [Clause.lines, Clause.emit, hl]
    exact Clause.toString.forEach_ok_iff _ _ _ _

theorem Clause.emit_directive (c : Clause) (d : Directive) :
    c.emit (.directive d) = .ok (depthToWhitespace c.depth ++ d.toString) := by
  cases hl : c.isLocation <;>
    simp [Clause.emit, hl, Clause.toString.callback, Location.toString.callback]

theorem Clause.emit_clause (parent child : Clause) :
    parent.emit (.clause child) =
      child.render.map (fun body =>
        (if parent.isLocation = false ∧ parent.depth ≤ 1 then "\n" else "") ++
          (depthToWhitespace parent.depth ++ child.name ++ " \x7b\n" ++ body ++ "\n" ++
            depthToWhitespace parent.depth ++ "\x7d")) := by
  cases hl : parent.isLocation with
  | true =>
    simp only [Clause.emit, hl, Location.toString.callback, Clause.render]
    congr 1
  | false =>
    simp only [Clause.emit, hl, Clause.toString.callback, Clause.render]
    congr 1
    funext body
    simp [String.append_assoc]

/-! ## Lemmas on the builder methods and on blocks -/

theorem Clause.push_entries (c : Clause) (e : Entry) :
    (c.push e).entries = c.entries ++ [e] := by
  cases c; rfl

theorem Clause.push_depth (c : Clause) (e : Entry) : (c.push e).depth = c.depth := by
  cases c; rfl

theorem Clause.push_name (c : Clause) (e : Entry) : (c.push e).name = c.name := by
  cases c; rfl

theorem Clause.push_cls (c : Clause) (e : Entry) : (c.push e).cls = c.cls := by
  cases c; rfl

theorem Entry.blocksOfList_append (xs ys : List Entry) :
    Entry.blocksOfList (xs ++ ys) = Entry.blocksOfList xs ++ Entry.blocksOfList ys := by
  induction xs with
  | nil => simp [Entry.blocksOfList]
  | cons x xs ih => simp [Entry.blocksOfList, ih]

theorem Clause.blocks_eq (c : Clause) : c.blocks = c :: Entry.blocksOfList c.entries := by
  cases c; simp [Clause.blocks, Clause.entries]

theorem Clause.blocks_push (c : Clause) (e : Entry) :
    (c.push e).blocks = c.push e :: (Entry.blocksOfList c.entries ++ Entry.blocks e) := by
  rw [Clause.blocks_eq, Clause.push_entries, Entry.blocksOfList_append]
  simp [Entry.blocksOfList]

theorem Clause.depthRule_new (cls : Cls) (name : String) (depth : Nat) :
    (Clause.mk cls name depth []).DepthRule := by
  intro owner ho child hc
  rw [Clause.blocks_eq] at ho
  simp [Clause.entries, Entry.blocksOfList] at ho
  subst ho
  simp [Clause.entries] at hc

theorem Clause.depthRule_push (c : Clause) (e : Entry) (hc : c.DepthRule)
    (he : ∀ ch : Clause, e = .clause ch → ch.DepthRule ∧ ch.depth = c.depth + 1) :
    (c.push e).DepthRule := by
  intro owner ho child hm
  rw [Clause.blocks_push] at ho
  rcases List.mem_cons.mp ho with ho | ho
  · subst ho
    rw [Clause.push_entries] at hm
    rw [Clause.push_depth]
    rcases List.mem_append.mp hm with hm | hm
    · exact hc c (by rw [Clause.blocks_eq]; exact List.mem_cons_self _ _) child hm
    · have h1 : Entry.clause child = e := by simpa using hm
      exact (he child h1.symm).2
  · rcases List.mem_append.mp ho with ho | ho
    · exact hc owner (by rw [Clause.blocks_eq]; exact List.mem_cons_of_mem _ ho) child hm
    · cases e with
      | directive d => simp [Entry.blocks] at ho
      | foreign => simp [Entry.blocks] at ho
      | clause ch =>
        rw [Entry.blocks] at ho
        exact (he ch rfl).1 owner ho child hm

mutual
theorem Op.run_depthRule : ∀ (op : Op) (c : Clause), c.DepthRule →
    (op.run c).DepthRule ∧ (op.run c).depth = c.depth
  | .clause name callback, c, hc => by
    rw [Op.run]
    have ih := Op.runAll_depthRule callback (Clause.new name (c.depth + 1))
      (Clause.depthRule_new _ _ _)
    refine ⟨Clause.depthRule_push c _ hc ?_, Clause.push_depth _ _⟩
    intro ch hch
    cases hch
    exact ih
  | .directive name value, c, hc => by
    rw [Op.run]
    refine ⟨Clause.depthRule_push c _ hc ?_, Clause.push_depth _ _⟩
    intro ch hch
    cases hch
  | .location path callback, c, hc => by
    rw [Op.run]
    have ih := Op.runAll_depthRule callback (Location.new path (c.depth + 1))
      (Clause.depthRule_new _ _ _)
    refine ⟨Clause.depthRule_push c _ hc ?_, Clause.push_depth _ _⟩
    intro ch hch
    cases hch
    exact ih
  | .cl name callback, c, hc => by
    rw [Op.run]
    have ih := Op.runAll_depthRule callback (Clause.new name (c.depth + 1))
      (Clause.depthRule_new _ _ _)
    refine ⟨Clause.depthRule_push c _ hc ?_, Clause.push_depth _ _⟩
    intro ch hch
    cases hch
    exact ih
  | .dir name value, c, hc => by
    rw [Op.run]
    refine ⟨Clause.depthRule_push c _ hc ?_, Clause.push_depth _ _⟩
    intro ch hch
    cases hch
  | .loc path callback, c, hc => by
    rw [Op.run]
    have ih := Op.runAll_depthRule callback (Location.new path (c.depth + 1))
      (Clause.depthRule_new _ _ _)
    refine ⟨Clause.depthRule_push c _ hc ?_, Clause.push_depth _ _⟩
    intro ch hch
    cases hch
    exact ih
theorem Op.runAll_depthRule : ∀ (ops : List Op) (c : Clause), c.DepthRule →
    (Op.runAll ops c).DepthRule ∧ (Op.runAll ops c).depth = c.depth
  | [], c, hc => by
    rw [Op.runAll]
    exact ⟨hc, rfl⟩
  | op :: ops, c, hc => by
    rw [Op.runAll]
    have h1 := Op.run_depthRule op c hc
    have h2 := Op.runAll_depthRule ops (Op.run op c) h1.1
    exact ⟨h2.1, h2.2.trans h1.2⟩
end

/-! ## Directive text -/

/-- C1: the text of a directive is its name, one space, the plain text of its value and
a semicolon, and nothing else, for every name and every value: a string is taken as it
is, a safe integer in decimal, any other number as the text the runtime prints for it;
the characters of the result are those of the name, a space, those of the value and a
semicolon. -/
theorem directive_toString_spec (name : String) :
    (∀ value : Value, (Directive.mk name value).toString = name ++ " " ++ value.text ++ ";") ∧
    (∀ s : String, (Directive.mk name (.str s)).toString = name ++ " " ++ s ++ ";") ∧
    (∀ (n : Int) (safe : n.natAbs < 2 ^ 53),
      (Directive.mk name (.num n safe)).toString = name ++ " " ++ toString n ++ ";") ∧
    (∀ text : String, (Directive.mk name (.float text)).toString = name ++ " " ++ text ++ ";") ∧
    (∀ value : Value, (Directive.mk name value).toString.data =
      name.data ++ ' ' :: (value.text.data ++ [';'])) ∧
    (Directive.mk "worker_connections" (.num 768)).toString = "worker_connections 768;" ∧
    (Directive.mk "max" (.num 9007199254740991)).toString = "max 9007199254740991;" ∧
    (Directive.mk "min" (.num (-9007199254740991))).toString = "min -9007199254740991;" := by
  refine ⟨fun _ => rfl, fun _ => rfl, fun _ _ => rfl, fun _ => rfl, fun value => ?_,
    rfl, rfl, rfl⟩
  simp [Directive.toString, String.data_append]

/-- C1 at a safe integer: the largest one, with the proof that it is safe. -/
theorem directive_toString_spec_witness :
    (9007199254740991 : Int).natAbs < 2 ^ 53 ∧
    (Directive.mk "max" (.num 9007199254740991 (by decide))).toString =
      "max" ++ " " ++ toString (9007199254740991 : Int) ++ ";" :=
  ⟨by decide, (directive_toString_spec "max").2.2.1 9007199254740991 (by decide)⟩

/-! ## Nested locations -/

/-- C2: on the code, the call of `location` (and of `loc`) on an instance of Location
is found on `Clause.prototype` and appends a Location one level deeper, whatever the
path, depth and entries of the receiver; `delete this.location` removes nothing. -/
theorem Location.location_call_appends (path name inner : String) (depth : Nat)
    (entries : List Entry) (callback : Clause → Clause) :
    (Clause.mk (.location path) name depth entries).has "location" = true ∧
    (Clause.mk (.location path) name depth entries).callLocation inner callback =
      .ok (.mk (.location path) name depth
        (entries ++ [.clause (callback (Location.new inner (depth + 1)))])) ∧
    (Clause.mk (.location path) name depth entries).callLoc inner callback =
      .ok (.mk (.location path) name depth
        (entries ++ [.clause (callback (Location.new inner (depth + 1)))])) ∧
    ((createInstance.location "/a" (fun l => l.location "/b" id)).render =
      .ok "\nlocation /a \x7b\n  location /b \x7b\n\n  \x7d\n\x7d") := by
  refine ⟨rfl, rfl, rfl, rfl⟩

/-! ## The spacer -/

/-- C3 fails on a Location: the location of `Spacer.document` has depth 1, and the text
it pushes for its child clause starts with the header line, without the newline of the
spacer. -/
theorem Spacer.location_has_no_spacer :
    Spacer.document.entries = [.clause Spacer.parent] ∧
    Spacer.parent.entries = [.clause Spacer.child] ∧
    Spacer.parent.depth ≤ 1 ∧
    Spacer.parent.emit (.clause Spacer.child) =
      .ok "  if ($bad) \x7b\n    return 403;\n  \x7d" ∧
    Spacer.parent.emit (.clause Spacer.child) ≠
      .ok ("\n" ++ "  if ($bad) \x7b\n    return 403;\n  \x7d") ∧
    Spacer.document.render =
      .ok "\nlocation / \x7b\n  if ($bad) \x7b\n    return 403;\n  \x7d\n\x7d" := by
  refine ⟨rfl, rfl, by decide, rfl, by decide, rfl⟩

/-- C3, amended: the text pushed for a child block is the block (header, body, closing
brace, at the indentation of the enclosing node) preceded by one newline exactly when
the enclosing node is not a Location and has depth 0 or 1; an enclosing Location never
puts the newline. -/
theorem Clause.emit_spacer (parent child : Clause) (body : String)
    (h : child.render = .ok body) :
    parent.emit (.clause child) =
      .ok ((if parent.isLocation = false ∧ parent.depth ≤ 1 then "\n" else "") ++
        (String.mk (List.replicate (2 * parent.depth) ' ') ++ child.name ++ " \x7b\n" ++
          body ++ "\n" ++ String.mk (List.replicate (2 * parent.depth) ' ') ++ "\x7d")) := by
  rw [Clause.emit_clause, h, depthToWhitespace_eq]
  rfl

/-- C3, amended, at the document of `example.js` cut down to its events clause: the
document is not a Location and has depth 0, so the newline is there. -/
theorem Clause.emit_spacer_witness :
    Events.clause.render = .ok "  worker_connections 768;" ∧
    createInstance.emit (.clause Events.clause) =
      .ok ((if createInstance.isLocation = false ∧ createInstance.depth ≤ 1 then "\n" else "") ++
        (String.mk (List.replicate (2 * createInstance.depth) ' ') ++ Events.clause.name ++
          " \x7b\n" ++ "  worker_connections 768;" ++ "\n" ++
          String.mk (List.replicate (2 * createInstance.depth) ' ') ++ "\x7d")) :=
  ⟨rfl, Clause.emit_spacer createInstance Events.clause "  worker_connections 768;" rfl⟩

/-! ## The depth rule -/

/-- C4: in every tree built from the document of the factory by builder calls (clause,
directive, location and their aliases, nested to any depth inside callbacks), the
document has depth 0 and every block entry, Clause or Location, is one level deeper
than the block that owns it. -/
theorem builder_depth_rule (ops : List Op) :
    (Op.runAll ops createInstance).depth = 0 ∧
    ∀ owner ∈ (Op.runAll ops createInstance).blocks, ∀ child : Clause,
      Entry.clause child ∈ owner.entries → child.depth = owner.depth + 1 := by
  have h := Op.runAll_depthRule ops createInstance (Clause.depthRule_new _ _ _)
  exact ⟨h.2, h.1⟩

/-- C4 at `Nesting.ops`: the server clause is a block of the tree, the location is its
entry, and the location is one level deeper. -/
theorem builder_depth_rule_witness :
    (Op.runAll Nesting.ops createInstance).depth = 0 ∧
    Nesting.server ∈ (Op.runAll Nesting.ops createInstance).blocks ∧
    Entry.clause Nesting.location ∈ Nesting.server.entries ∧
    Nesting.location.depth = Nesting.server.depth + 1 :=
  ⟨(builder_depth_rule Nesting.ops).1,
    List.Mem.tail _ (List.Mem.tail _ (List.Mem.head _)),
    List.Mem.head _,
    (builder_depth_rule Nesting.ops).2 Nesting.server
      (List.Mem.tail _ (List.Mem.tail _ (List.Mem.head _)))
      Nesting.location (List.Mem.head _)⟩

/-! ## Lines of a rendering -/

theorem forall₂_getElem? {α β : Type} {R : α → β → Prop} {xs : List α} {ys : List β}
    (h : List.Forall₂ R xs ys) (i : Nat) (x : α) (hx : xs[i]? = some x) :
    ∃ y, ys[i]? = some y ∧ R x y := by
  induction h generalizing i with
  | nil => simp at hx
  | cons hr _ ih =>
    cases i with
    | zero =>
      simp at hx
      subst hx
      exact ⟨_, by simp, hr⟩
    | succ i =>
      simp at hx
      obtain ⟨y, hy, hxy⟩ := ih i hx
      exact ⟨y, by simpa using hy, hxy⟩

/-- C5: for a block at depth d (Clause, Location or document) and a directive among its
entries, the string pushed for the directive is 2*d spaces followed by the name, a
space, the value and a semicolon, and it is the line at the position of the directive
in the array that the rendering joins. -/
theorem directive_line (c : Clause) (d : Directive) (i : Nat) (lines : List String)
    (hi : c.entries[i]? = some (.directive d)) (hl : c.lines = .ok lines) :
    c.emit (.directive d) =
      .ok (String.mk (List.replicate (2 * c.depth) ' ') ++ d.name ++ " " ++ d.value.text ++ ";") ∧
    lines[i]? =
      some (String.mk (List.replicate (2 * c.depth) ' ') ++ d.name ++ " " ++ d.value.text ++ ";") := by
  have he : c.emit (.directive d) =
      .ok (String.mk (List.replicate (2 * c.depth) ' ') ++ d.name ++ " " ++ d.value.text ++ ";") := by
    rw [Clause.emit_directive, depthToWhitespace_eq]
    simp [Directive.toString, String.append_assoc]
  refine ⟨he, ?_⟩
  obtain ⟨t, ht, hr⟩ := forall₂_getElem? ((Clause.lines_ok_iff c lines).mp hl) i _ hi
  rw [he] at hr
  cases hr
  exact ht

/-- C5 at the events clause of `example.js`: its one directive is the line with two
leading spaces. -/
theorem directive_line_witness :
    Events.clause.entries[0]? = some (.directive ⟨"worker_connections", .num 768⟩) ∧
    Events.clause.lines = .ok ["  worker_connections 768;"] ∧
    Events.clause.emit (.directive ⟨"worker_connections", .num 768⟩) =
      .ok "  worker_connections 768;" ∧
    ["  worker_connections 768;"][0]? = some "  worker_connections 768;" :=
  ⟨rfl, rfl,
    (directive_line Events.clause ⟨"worker_connections", .num 768⟩ 0
      ["  worker_connections 768;"] rfl rfl).1,
    (directive_line Events.clause ⟨"worker_connections", .num 768⟩ 0
      ["  worker_connections 768;"] rfl rfl).2⟩

/-- C6: the rendering of a block is the strings pushed for its entries, one for each
entry and in the order of the entries, joined by single newlines; it returns a string
exactly when every entry yields one. -/
theorem render_joins_entries (c : Clause) (s : String) :
    c.render = .ok s ↔
      ∃ texts : List String,
        List.Forall₂ (fun e t => c.emit e = .ok t) c.entries texts ∧
        texts.length = c.entries.length ∧
        s = String.intercalate "\n" texts := by
  rw [Clause.render_eq_lines]
  constructor
  · intro h
    cases hl : c.lines with
    | error err => rw [hl] at h; cases h
    | ok ls =>
      rw [hl] at h
      cases h
      have hf := (Clause.lines_ok_iff c ls).mp hl
      exact ⟨ls, hf, hf.length_eq.symm, rfl⟩
  · rintro ⟨texts, hf, _, hs⟩
    rw [(Clause.lines_ok_iff c texts).mpr hf, hs]
    rfl

/-! ## Child blocks -/

/-- C7: for a parent at depth d and a child block c among its entries that renders to
`body`, the string pushed for c is an optional spacer (nothing or one newline), then
2*d spaces, the name of c, a space and an opening brace, a newline, `body`, a newline,
2*d spaces and a closing brace. -/
theorem child_block_text (parent child : Clause) (body : String)
    (h : child.render = .ok body) :
    ∃ spacer : String, (spacer = "" ∨ spacer = "\n") ∧
      parent.emit (.clause child) =
        .ok (spacer ++ (String.mk (List.replicate (2 * parent.depth) ' ') ++ child.name ++
          " \x7b" ++ "\n" ++ body ++ "\n" ++
          String.mk (List.replicate (2 * parent.depth) ' ') ++ "\x7d")) := by
  refine ⟨if parent.isLocation = false ∧ parent.depth ≤ 1 then "\n" else "", ?_, ?_⟩
  · split
    · exact Or.inr rfl
    · exact Or.inl rfl
  · rw [Clause.emit_clause, h, depthToWhitespace_eq]
    simp [Except.map, String.append_assoc]

/-- C7 at the document holding the events clause of `example.js`. -/
theorem child_block_text_witness :
    Events.clause.render = .ok "  worker_connections 768;" ∧
    ∃ spacer : String, (spacer = "" ∨ spacer = "\n") ∧
      createInstance.emit (.clause Events.clause) =
        .ok (spacer ++ (String.mk (List.replicate (2 * createInstance.depth) ' ') ++
          Events.clause.name ++ " \x7b" ++ "\n" ++ "  worker_connections 768;" ++ "\n" ++
          String.mk (List.replicate (2 * createInstance.depth) ' ') ++ "\x7d")) :=
  ⟨rfl, child_block_text createInstance Events.clause "  worker_connections 768;" rfl⟩

/-! ## End to end -/

theorem depthToWhitespace_zero : depthToWhitespace 0 = "" := rfl

theorem depthToWhitespace_one : depthToWhitespace 1 = "  " := rfl

/-- C8: a fresh document to which one clause n is added, whose callback adds the one
directive (k, v), renders as a newline, n, a space and an opening brace, a newline, two
spaces, k, a space, v and a semicolon, a newline and a closing brace; with the events
clause of `example.js` this is the text of the spec. -/
theorem document_with_one_clause :
    (∀ (n k : String) (v : Value),
      (createInstance.clause n (fun c => c.directive k v)).render =
        .ok ("\n" ++ n ++ " \x7b" ++ "\n" ++ "  " ++ k ++ " " ++ v.text ++ ";" ++ "\n" ++ "\x7d")) ∧
    (createInstance.clause "events" (fun c => c.directive "worker_connections" (.num 768))).render =
      .ok "\nevents \x7b\n  worker_connections 768;\n\x7d" := by
  refine ⟨fun n k v => ?_, rfl⟩
  simp [createInstance, NginxConfig.new, Clause.clause, Clause.directive, Clause.new,
    Clause.push, Clause.render, Clause.isLocation, Clause.cls, Clause.toString,
    Clause.toString.forEach, Clause.toString.callback, Except.map, Clause.depth, Clause.name,
    intercalate_singleton, depthToWhitespace_zero, depthToWhitespace_one, Directive.toString,
    String.append_assoc]
  apply String.ext
  simp [String.data_append]

/-- C9: a fresh document to which only the directive (k, v) is added renders as k, a
space, v and a semicolon, with nothing before or after; for worker_processes 4 this is
the text of the spec. -/
theorem document_with_one_directive :
    (∀ (k : String) (v : Value),
      (createInstance.directive k v).render = .ok (k ++ " " ++ v.text ++ ";")) ∧
    (createInstance.directive "worker_processes" (.str "4")).render =
      .ok "worker_processes 4;" := by
  refine ⟨fun k v => ?_, rfl⟩
  simp [createInstance, NginxConfig.new, Clause.directive, Clause.push, Clause.render,
    Clause.isLocation, Clause.cls, Clause.toString, Clause.toString.forEach,
    Clause.toString.callback, Except.map, intercalate_singleton, depthToWhitespace_zero,
    Directive.toString]

/-! ## Induction over trees -/

theorem Clause.induction {P : Clause → Prop}
    (step : ∀ (cls : Cls) (name : String) (depth : Nat) (entries : List Entry),
      (∀ c : Clause, Entry.clause c ∈ entries → P c) → P (.mk cls name depth entries))
    (c : Clause) : P c := by
  refine Clause.rec (motive_1 := P) (motive_2 := fun e => ∀ c : Clause, e = .clause c → P c)
    (motive_3 := fun es => ∀ c : Clause, Entry.clause c ∈ es → P c) ?_ ?_ ?_ ?_ ?_ ?_ c
  · intro cls name depth entries ih
    exact step cls name depth entries ih
  · intro d c h
    cases h
  · intro c ih c2 h
    cases h
    exact ih
  · intro c h
    cases h
  · intro c h
    cases h
  · intro e es ihe ihes c h
    rcases List.mem_cons.mp h with h | h
    · exact ihe c h.symm
    · exact ihes c h

/-! ## Location and Clause bodies -/

theorem Clause.toString.callback_eq_location (spacer ws : String) (e : Entry)
    (h : spacer = "" ∨ ∀ c : Clause, e ≠ .clause c) :
    Clause.toString.callback spacer ws e = Location.toString.callback ws e := by
  cases e with
  | directive d => simp [Clause.toString.callback, Location.toString.callback]
  | foreign => simp [Clause.toString.callback, Location.toString.callback]
  | clause c =>
    rcases h with h | h
    · subst h
      simp [Clause.toString.callback, Location.toString.callback, String.empty_append,
        String.append_assoc]
    · exact absurd rfl (h c)

theorem Clause.toString.forEach_eq_location (spacer ws : String) (es : List Entry)
    (h : spacer = "" ∨ ∀ c : Clause, Entry.clause c ∉ es) :
    Clause.toString.forEach spacer ws es = Location.toString.forEach ws es := by
  induction es with
  | nil => simp [Clause.toString.forEach, Location.toString.forEach]
  | cons e es ih =>
    have he : spacer = "" ∨ ∀ c : Clause, e ≠ .clause c := by
      rcases h with h | h
      · exact Or.inl h
      · refine Or.inr (fun c hc => h c ?_)
        rw [hc]
        exact List.mem_cons_self _ _
    have hes : spacer = "" ∨ ∀ c : Clause, Entry.clause c ∉ es := by
      rcases h with h | h
      · exact Or.inl h
      · exact Or.inr (fun c hc => h c (List.mem_cons_of_mem _ hc))
    rw [Clause.toString.forEach, Location.toString.forEach,
      Clause.toString.callback_eq_location spacer ws e he, ih hes]

/-- C11 fails at depth 1: with the same child block as only entry, the Location renders
the header line first and the Clause a blank line first. -/
theorem Spacer.location_differs_from_clause :
    (Clause.mk (.location "/") "location /" 1 [.clause Spacer.child]).render =
      .ok "  if ($bad) \x7b\n    return 403;\n  \x7d" ∧
    (Clause.mk .clause "location /" 1 [.clause Spacer.child]).render =
      .ok "\n  if ($bad) \x7b\n    return 403;\n  \x7d" ∧
    (Clause.mk (.location "/") "location /" 1 [.clause Spacer.child]).render ≠
      (Clause.mk .clause "location /" 1 [.clause Spacer.child]).render := by
  refine ⟨rfl, rfl, by decide⟩

/-- C11, amended: a Location and an ordinary Clause at the same depth d that hold the
same entries render to the same text when d is 2 or more, and at any depth when no
entry is a block. -/
theorem location_renders_as_clause (path name other : String) (d : Nat) (es : List Entry)
    (h : 2 ≤ d ∨ ∀ c : Clause, Entry.clause c ∉ es) :
    (Clause.mk (.location path) name d es).render = (Clause.mk .clause other d es).render := by
  have hs : (if d ≤ 1 then "\n" else "") = "" ∨ ∀ c : Clause, Entry.clause c ∉ es := by
    rcases h with h | h
    · left
      rw [if_neg (by omega)]
    · exact Or.inr h
  simp only [Clause.render, Clause.isLocation, Clause.cls, Clause.toString, Location.toString]
  rw [Clause.toString.forEach_eq_location _ _ es hs]

/-- C11, amended, at depth 2 with a child block among the entries. -/
theorem location_renders_as_clause_witness :
    (2 ≤ 2 ∨ ∀ c : Clause, Entry.clause c ∉ [Entry.clause Nesting.location]) ∧
    (Clause.mk (.location "/api") "location /api" 2 [.clause Nesting.location]).render =
      (Clause.mk .clause "server" 2 [.clause Nesting.location]).render :=
  ⟨Or.inl (by decide),
    location_renders_as_clause "/api" "location /api" "server" 2 [.clause Nesting.location]
      (Or.inl (by decide))⟩

/-! ## Aliases -/

/-- C12: the aliases give the same resulting clause as the full methods, for every
receiver and all arguments: `cl` as `clause`, `dir` as `directive`, `loc` as `location`,
also as calls inside a callback. -/
theorem aliases_same (self : Clause) (name path : String) (value : Value)
    (callback : Clause → Clause) (calls : List Op) :
    self.cl name callback = self.clause name callback ∧
    self.dir name value = self.directive name value ∧
    self.loc path callback = self.location path callback ∧
    Op.run (.cl name calls) self = Op.run (.clause name calls) self ∧
    Op.run (.dir name value) self = Op.run (.directive name value) self ∧
    Op.run (.loc path calls) self = Op.run (.location path calls) self :=
  ⟨rfl, rfl, rfl, rfl, rfl, rfl⟩

/-! ## Blocks below a block -/

theorem Clause.self_mem_blocks (c : Clause) : c ∈ c.blocks := by
  rw [Clause.blocks_eq]
  exact List.mem_cons_self _ _

theorem Entry.mem_blocksOfList_iff (b : Clause) (es : List Entry) :
    b ∈ Entry.blocksOfList es ↔ ∃ ch : Clause, Entry.clause ch ∈ es ∧ b ∈ ch.blocks := by
  induction es with
  | nil => simp [Entry.blocksOfList]
  | cons e es ih =>
    rw [Entry.blocksOfList, List.mem_append, ih]
    constructor
    · rintro (h | ⟨ch, hch, hb⟩)
      · cases e with
        | directive d => simp [Entry.blocks] at h
        | foreign => simp [Entry.blocks] at h
        | clause ch =>
          rw [Entry.blocks] at h
          exact ⟨ch, List.mem_cons_self _ _, h⟩
      · exact ⟨ch, List.mem_cons_of_mem _ hch, hb⟩
    · rintro ⟨ch, hch, hb⟩
      rcases List.mem_cons.mp hch with h | h
      · left
        rw [← h, Entry.blocks]
        exact hb
      · exact Or.inr ⟨ch, h, hb⟩

theorem Clause.mem_blocks_of_entry (c ch b : Clause) (hch : Entry.clause ch ∈ c.entries)
    (hb : b ∈ ch.blocks) : b ∈ c.blocks := by
  rw [Clause.blocks_eq]
  exact List.mem_cons_of_mem _ ((Entry.mem_blocksOfList_iff b c.entries).mpr ⟨ch, hch, hb⟩)

theorem Clause.blocks_trans (c : Clause) :
    ∀ b ∈ c.blocks, ∀ b2 ∈ b.blocks, b2 ∈ c.blocks := by
  induction c using Clause.induction with
  | step cls name depth entries ih =>
    intro b hb b2 hb2
    rw [Clause.blocks_eq] at hb
    rcases List.mem_cons.mp hb with hb | hb
    · rw [hb] at hb2
      exact hb2
    · obtain ⟨ch, hch, hbch⟩ := (Entry.mem_blocksOfList_iff b _).mp hb
      exact Clause.mem_blocks_of_entry _ ch b2 hch (ih ch hch b hbch b2 hb2)

/-! ## Rendering succeeds without foreign entries -/

theorem Clause.emit_foreign (c : Clause) : c.emit .foreign = .error "Fatal." := by
  cases hl : c.isLocation <;>
    simp [Clause.emit, hl, Clause.toString.callback, Location.toString.callback]

theorem forall₂_of_forall_exists {α β : Type} {R : α → β → Prop} (xs : List α)
    (h : ∀ x ∈ xs, ∃ y, R x y) : ∃ ys : List β, List.Forall₂ R xs ys := by
  induction xs with
  | nil => exact ⟨[], List.Forall₂.nil⟩
  | cons x xs ih =>
    obtain ⟨y, hy⟩ := h x (List.mem_cons_self _ _)
    obtain ⟨ys, hys⟩ := ih (fun z hz => h z (List.mem_cons_of_mem _ hz))
    exact ⟨y :: ys, List.Forall₂.cons hy hys⟩

theorem Clause.noForeign_of_mem_blocks (c b : Clause) (hc : c.NoForeign) (hb : b ∈ c.blocks) :
    b.NoForeign :=
  fun b2 hb2 => hc b2 (Clause.blocks_trans c b hb b2 hb2)

theorem Clause.render_ok_of_noForeign (c : Clause) : c.NoForeign → ∃ s, c.render = .ok s := by
  induction c using Clause.induction with
  | step cls name depth entries ih =>
    intro hc
    have hemit : ∀ e ∈ entries, ∃ t, (Clause.mk cls name depth entries).emit e = .ok t := by
      intro e he
      cases e with
      | directive d => exact ⟨_, Clause.emit_directive _ d⟩
      | foreign =>
        have := hc _ (Clause.self_mem_blocks _) _ he
        simp [Entry.isForeign] at this
      | clause ch =>
        have hch : ch.NoForeign :=
          Clause.noForeign_of_mem_blocks _ ch hc
            (Clause.mem_blocks_of_entry _ ch ch he (Clause.self_mem_blocks ch))
        obtain ⟨body, hbody⟩ := ih ch he hch
        rw [Clause.emit_clause, hbody]
        exact ⟨_, rfl⟩
    obtain ⟨texts, ht⟩ := forall₂_of_forall_exists entries hemit
    have hl := (Clause.lines_ok_iff (Clause.mk cls name depth entries) texts).mpr ht
    rw [Clause.render_eq_lines, hl]
    exact ⟨_, rfl⟩

/-! ## Builder calls keep foreign entries out -/

theorem Clause.noForeign_new (cls : Cls) (name : String) (depth : Nat) :
    (Clause.mk cls name depth []).NoForeign := by
  intro b hb e he
  rw [Clause.blocks_eq] at hb
  simp [Clause.entries, Entry.blocksOfList] at hb
  subst hb
  simp [Clause.entries] at he

theorem Clause.noForeign_push (c : Clause) (e : Entry) (hc : c.NoForeign)
    (he : e.isForeign = false) (hch : ∀ ch : Clause, e = .clause ch → ch.NoForeign) :
    (c.push e).NoForeign := by
  intro b hb x hx
  rw [Clause.blocks_push] at hb
  rcases List.mem_cons.mp hb with hb | hb
  · subst hb
    rw [Clause.push_entries] at hx
    rcases List.mem_append.mp hx with hx | hx
    · exact hc c (Clause.self_mem_blocks c) x hx
    · have h1 : x = e := by simpa using hx
      rw [h1]
      exact he
  · rcases List.mem_append.mp hb with hb | hb
    · exact hc b (by rw [Clause.blocks_eq]; exact List.mem_cons_of_mem _ hb) x hx
    · cases e with
      | directive d => simp [Entry.blocks] at hb
      | foreign => simp [Entry.blocks] at hb
      | clause ch =>
        rw [Entry.blocks] at hb
        exact hch ch rfl b hb x hx

mutual
theorem Op.run_noForeign : ∀ (op : Op) (c : Clause), c.NoForeign → (op.run c).NoForeign
  | .clause name callback, c, hc => by
    rw [Op.run]
    refine Clause.noForeign_push c _ hc rfl ?_
    intro ch hch
    cases hch
    exact Op.runAll_noForeign callback _ (Clause.noForeign_new _ _ _)
  | .directive name value, c, hc => by
    rw [Op.run]
    refine Clause.noForeign_push c _ hc rfl ?_
    intro ch hch
    cases hch
  | .location path callback, c, hc => by
    rw [Op.run]
    refine Clause.noForeign_push c _ hc rfl ?_
    intro ch hch
    cases hch
    exact Op.runAll_noForeign callback _ (Clause.noForeign_new _ _ _)
  | .cl name callback, c, hc => by
    rw [Op.run]
    refine Clause.noForeign_push c _ hc rfl ?_
    intro ch hch
    cases hch
    exact Op.runAll_noForeign callback _ (Clause.noForeign_new _ _ _)
  | .dir name value, c, hc => by
    rw [Op.run]
    refine Clause.noForeign_push c _ hc rfl ?_
    intro ch hch
    cases hch
  | .loc path callback, c, hc => by
    rw [Op.run]
    refine Clause.noForeign_push c _ hc rfl ?_
    intro ch hch
    cases hch
    exact Op.runAll_noForeign callback _ (Clause.noForeign_new _ _ _)
theorem Op.runAll_noForeign : ∀ (ops : List Op) (c : Clause), c.NoForeign →
    (Op.runAll ops c).NoForeign
  | [], c, hc => by
    rw [Op.runAll]
    exact hc
  | op :: ops, c, hc => by
    rw [Op.runAll]
    exact Op.runAll_noForeign ops (Op.run op c) (Op.run_noForeign op c hc)
end

/-! ## What builder calls keep of the receiver -/

theorem Op.run_frame (op : Op) (c : Clause) :
    (op.run c).cls = c.cls ∧ (op.run c).name = c.name ∧ (op.run c).depth = c.depth := by
  cases op <;> rw [Op.run] <;>
    exact ⟨Clause.push_cls _ _, Clause.push_name _ _, Clause.push_depth _ _⟩

theorem Op.runAll_frame (ops : List Op) (c : Clause) :
    (Op.runAll ops c).cls = c.cls ∧ (Op.runAll ops c).name = c.name ∧
      (Op.runAll ops c).depth = c.depth := by
  induction ops generalizing c with
  | nil =>
    rw [Op.runAll]
    exact ⟨rfl, rfl, rfl⟩
  | cons op ops ih =>
    rw [Op.runAll]
    obtain ⟨h1, h2, h3⟩ := ih (Op.run op c)
    obtain ⟨g1, g2, g3⟩ := Op.run_frame op c
    exact ⟨h1.trans g1, h2.trans g2, h3.trans g3⟩

theorem Op.run_congr (op : Op) (c1 c2 : Clause) (hd : c1.depth = c2.depth)
    (he : c1.entries = c2.entries) :
    (op.run c1).depth = (op.run c2).depth ∧ (op.run c1).entries = (op.run c2).entries := by
  cases op <;> rw [Op.run, Op.run] <;>
    simp [Clause.clause, Clause.location, Clause.directive, Clause.cl, Clause.loc, Clause.dir,
      Clause.push_entries, Clause.push_depth, hd, he]

theorem Op.runAll_congr (ops : List Op) (c1 c2 : Clause) (hd : c1.depth = c2.depth)
    (he : c1.entries = c2.entries) :
    (Op.runAll ops c1).depth = (Op.runAll ops c2).depth ∧
      (Op.runAll ops c1).entries = (Op.runAll ops c2).entries := by
  induction ops generalizing c1 c2 with
  | nil =>
    rw [Op.runAll, Op.runAll]
    exact ⟨hd, he⟩
  | cons op ops ih =>
    rw [Op.runAll, Op.runAll]
    obtain ⟨h1, h2⟩ := Op.run_congr op c1 c2 hd he
    exact ih _ _ h1 h2

theorem Clause.render_congr (c1 c2 : Clause) (hl : c1.isLocation = c2.isLocation)
    (hd : c1.depth = c2.depth) (he : c1.entries = c2.entries) : c1.render = c2.render := by
  obtain ⟨cls1, n1, d1, es1⟩ := c1
  obtain ⟨cls2, n2, d2, es2⟩ := c2
  simp only [Clause.depth, Clause.entries] at hd he
  subst hd he
  simp only [Clause.render, hl]
  cases (Clause.mk cls2 n2 d1 es1).isLocation <;> simp [Clause.toString, Location.toString]

theorem Clause.emit_congr (c1 c2 : Clause) (hl : c1.isLocation = c2.isLocation)
    (hd : c1.depth = c2.depth) (e : Entry) : c1.emit e = c2.emit e := by
  simp only [Clause.emit, hl, hd]

/-! ## Locations created by a parent -/

/-- C13: the Location that `location(p, configure)` creates on a parent P has the name
location, a space and p, and depth one more than P; with a callback made of builder
calls it is attached with that name and depth, it renders, and the text pushed for it
when P is rendered starts (after the optional spacer) with the header line of 2 * depth
of P spaces, the name and an opening brace. -/
theorem location_name_and_header (P : Clause) (p : String) (calls : List Op) :
    (Location.new p (P.depth + 1)).name = "location " ++ p ∧
    (Location.new p (P.depth + 1)).depth = P.depth + 1 ∧
    ∃ child : Clause,
      (P.location p (Op.runAll calls)).entries = P.entries ++ [.clause child] ∧
      child.name = "location " ++ p ∧ child.depth = P.depth + 1 ∧
      child.cls = .location p ∧
      ∃ spacer body : String, (spacer = "" ∨ spacer = "\n") ∧ child.render = .ok body ∧
        (P.location p (Op.runAll calls)).emit (.clause child) =
          .ok (spacer ++
            (String.mk (List.replicate (2 * P.depth) ' ') ++ "location " ++ p ++ " \x7b") ++
            "\n" ++ body ++ "\n" ++ String.mk (List.replicate (2 * P.depth) ' ') ++ "\x7d") := by
  refine ⟨rfl, rfl, Op.runAll calls (Location.new p (P.depth + 1)), ?_, ?_, ?_, ?_, ?_⟩
  · exact Clause.push_entries _ _
  · exact (Op.runAll_frame calls _).2.1
  · exact (Op.runAll_frame calls _).2.2
  · exact (Op.runAll_frame calls _).1
  · obtain ⟨body, hbody⟩ := Clause.render_ok_of_noForeign _
      (Op.runAll_noForeign calls (Location.new p (P.depth + 1)) (Clause.noForeign_new _ _ _))
    refine ⟨if P.isLocation = false ∧ P.depth ≤ 1 then "\n" else "", body, ?_, hbody, ?_⟩
    · split
      · exact Or.inr rfl
      · exact Or.inl rfl
    · have hP : (P.location p (Op.runAll calls)).emit
          (.clause (Op.runAll calls (Location.new p (P.depth + 1)))) =
          P.emit (.clause (Op.runAll calls (Location.new p (P.depth + 1)))) :=
        Clause.emit_congr _ _ (by simp [Clause.isLocation, Clause.location, Clause.push_cls])
          (Clause.push_depth _ _) _
      rw [hP, Clause.emit_clause, hbody, depthToWhitespace_eq, (Op.runAll_frame calls _).2.1]
      simp only [Except.map, Location.new, Clause.name]
      congr 1
      apply String.ext
      simp [String.data_append]

/-! ## The fatal branch -/

/-- C14: in a tree built from the document of the factory by builder calls, every entry
of every block is a Directive or an instance of Clause (a Clause or a Location), and
every block of the tree, the document first, renders to a string: the branch that
throws is never taken. -/
theorem fatal_unreachable (calls : List Op) :
    ∀ b ∈ (Op.runAll calls createInstance).blocks,
      (∀ e ∈ b.entries, (∃ d : Directive, e = .directive d) ∨ (∃ c : Clause, e = .clause c)) ∧
      (∃ s : String, b.render = .ok s) ∧ b.render ≠ .error "Fatal." := by
  intro b hb
  have hdoc : (Op.runAll calls createInstance).NoForeign :=
    Op.runAll_noForeign calls createInstance (Clause.noForeign_new _ _ _)
  have hbn : b.NoForeign := Clause.noForeign_of_mem_blocks _ b hdoc hb
  obtain ⟨s, hs⟩ := Clause.render_ok_of_noForeign b hbn
  refine ⟨?_, ⟨s, hs⟩, ?_⟩
  · intro e he
    have hf := hbn b (Clause.self_mem_blocks b) e he
    cases e with
    | directive d => exact Or.inl ⟨d, rfl⟩
    | clause c => exact Or.inr ⟨c, rfl⟩
    | foreign => simp [Entry.isForeign] at hf
  · rw [hs]
    intro h
    cases h

/-- C14 at `Sample.document`, for the document itself. -/
theorem fatal_unreachable_witness :
    Sample.document ∈ (Op.runAll Sample.ops createInstance).blocks ∧
    (∀ e ∈ Sample.document.entries,
      (∃ d : Directive, e = .directive d) ∨ (∃ c : Clause, e = .clause c)) ∧
    (∃ s : String, Sample.document.render = .ok s) ∧
    Sample.document.render ≠ .error "Fatal." :=
  ⟨List.Mem.head _, fatal_unreachable Sample.ops Sample.document (List.Mem.head _)⟩

/-! ## Rendering leaves the tree as it was -/

theorem Clause.toStringState.callback_eq (spacer ws : String) (e : Entry)
    (h : ∀ ch : Clause, e = .clause ch → ch.ReadOnly) :
    Clause.toStringState.callback spacer ws e =
      (Clause.toString.callback spacer ws e).map (fun t => (t, e)) := by
  cases e with
  | directive d => simp [Clause.toStringState.callback, Clause.toString.callback, Except.map]
  | foreign => simp [Clause.toStringState.callback, Clause.toString.callback, Except.map]
  | clause ch =>
    obtain ⟨h1, h2⟩ := h ch rfl
    rw [Clause.toStringState.callback, Clause.toString.callback]
    cases ch.isLocation with
    | true =>
      simp only [h2]
      cases Location.toString ch <;> simp [Except.map]
    | false =>
      simp only [h1]
      cases Clause.toString ch <;> simp [Except.map]

theorem Location.toStringState.callback_location_eq (ws : String) (e : Entry)
    (h : ∀ ch : Clause, e = .clause ch → ch.ReadOnly) :
    Location.toStringState.callback ws e =
      (Location.toString.callback ws e).map (fun t => (t, e)) := by
  cases e with
  | directive d => simp [Location.toStringState.callback, Location.toString.callback, Except.map]
  | foreign => simp [Location.toStringState.callback, Location.toString.callback, Except.map]
  | clause ch =>
    obtain ⟨h1, h2⟩ := h ch rfl
    rw [Location.toStringState.callback, Location.toString.callback]
    cases ch.isLocation with
    | true =>
      simp only [h2]
      cases Location.toString ch <;> simp [Except.map]
    | false =>
      simp only [h1]
      cases Clause.toString ch <;> simp [Except.map]

theorem Clause.toStringState.forEach_eq (spacer ws : String) (es : List Entry)
    (h : ∀ ch : Clause, Entry.clause ch ∈ es → ch.ReadOnly) :
    Clause.toStringState.forEach spacer ws es =
      (Clause.toString.forEach spacer ws es).map (fun r => (r, es)) := by
  induction es with
  | nil => simp [Clause.toStringState.forEach, Clause.toString.forEach, Except.map]
  | cons e es ih =>
    rw [Clause.toStringState.forEach, Clause.toString.forEach,
      Clause.toStringState.callback_eq spacer ws e
        (fun ch hch => h ch (by rw [hch]; exact List.mem_cons_self _ _)),
      ih (fun ch hch => h ch (List.mem_cons_of_mem _ hch))]
    cases Clause.toString.callback spacer ws e with
    | error err => simp [Except.map]
    | ok text => cases Clause.toString.forEach spacer ws es <;> simp [Except.map]

theorem Location.toStringState.forEach_location_eq (ws : String) (es : List Entry)
    (h : ∀ ch : Clause, Entry.clause ch ∈ es → ch.ReadOnly) :
    Location.toStringState.forEach ws es =
      (Location.toString.forEach ws es).map (fun r => (r, es)) := by
  induction es with
  | nil => simp [Location.toStringState.forEach, Location.toString.forEach, Except.map]
  | cons e es ih =>
    rw [Location.toStringState.forEach, Location.toString.forEach,
      Location.toStringState.callback_location_eq ws e
        (fun ch hch => h ch (by rw [hch]; exact List.mem_cons_self _ _)),
      ih (fun ch hch => h ch (List.mem_cons_of_mem _ hch))]
    cases Location.toString.callback ws e with
    | error err => simp [Except.map]
    | ok text => cases Location.toString.forEach ws es <;> simp [Except.map]

theorem Clause.readOnly (c : Clause) : c.ReadOnly := by
  induction c using Clause.induction with
  | step cls name depth entries ih =>
    constructor
    · rw [Clause.toStringState, Clause.toString]
      simp only [Clause.toStringState.forEach_eq _ _ entries ih]
      cases Clause.toString.forEach (if depth ≤ 1 then "\n" else "") (depthToWhitespace depth)
        entries <;> simp [Except.map]
    · rw [Location.toStringState, Location.toString]
      simp only [Location.toStringState.forEach_location_eq _ entries ih]
      cases Location.toString.forEach (depthToWhitespace depth) entries <;> simp [Except.map]

theorem Clause.renderState_eq (c : Clause) :
    c.renderState = c.render.map (fun s => (s, c)) := by
  obtain ⟨h1, h2⟩ := Clause.readOnly c
  cases hl : c.isLocation <;> simp only [Clause.renderState, Clause.render, hl, h1, h2]

/-- C15: rendering only reads the tree: whenever rendering `c` with the state passed
along returns the string `s` and the state `after`, `after` is `c` itself (same class,
name, depth and entries), `s` is the string of the pure rendering, and rendering again
returns the same string and state; in all cases the run with state is the pure
rendering paired with the unchanged tree. -/
theorem render_reads_only (c : Clause) (s : String) (after : Clause)
    (h : c.renderState = .ok (s, after)) :
    after = c ∧ after.cls = c.cls ∧ after.name = c.name ∧ after.depth = c.depth ∧
    after.entries = c.entries ∧ c.render = .ok s ∧ after.renderState = .ok (s, after) ∧
    c.renderState = c.render.map (fun t => (t, c)) := by
  have h0 := Clause.renderState_eq c
  rw [h0] at h
  cases hr : c.render with
  | error err =>
    rw [hr] at h
    cases h
  | ok t =>
    rw [hr] at h
    cases h
    refine ⟨rfl, rfl, rfl, rfl, rfl, rfl, ?_, ?_⟩
    · rw [h0, hr]
      rfl
    · rw [h0, hr]

/-- C15 at `Sample.document`. -/
theorem render_reads_only_witness :
    Sample.document.renderState = .ok (Sample.text, Sample.document) ∧
    (Sample.document = Sample.document ∧ Sample.document.cls = Sample.document.cls ∧
      Sample.document.name = Sample.document.name ∧
      Sample.document.depth = Sample.document.depth ∧
      Sample.document.entries = Sample.document.entries ∧
      Sample.document.render = .ok Sample.text ∧
      Sample.document.renderState = .ok (Sample.text, Sample.document) ∧
      Sample.document.renderState = Sample.document.render.map (fun t => (t, Sample.document))) :=
  ⟨rfl, render_reads_only Sample.document Sample.text Sample.document rfl⟩

/-! ## The document -/

/-- C16: a document is created at depth 0, without entries, and renders with the method
of Clause; fresh, it renders to the empty string; and two documents that differ only in
the filename render to the same text after the same chain of builder calls. -/
theorem filename_is_inert (f g : Option String) (calls : List Op) :
    (NginxConfig.new f).depth = 0 ∧ (NginxConfig.new f).entries = [] ∧
    (NginxConfig.new f).render = Clause.toString (NginxConfig.new f) ∧
    (NginxConfig.new f).render = .ok "" ∧ createInstance.render = .ok "" ∧
    (Op.runAll calls (NginxConfig.new f)).entries = (Op.runAll calls (NginxConfig.new g)).entries ∧
    (Op.runAll calls (NginxConfig.new f)).render = (Op.runAll calls (NginxConfig.new g)).render := by
  have hc := Op.runAll_congr calls (NginxConfig.new f) (NginxConfig.new g) rfl rfl
  refine ⟨rfl, rfl, rfl, rfl, rfl, hc.2, ?_⟩
  apply Clause.render_congr _ _ _ hc.1 hc.2
  unfold Clause.isLocation
  rw [(Op.runAll_frame calls (NginxConfig.new f)).1, (Op.runAll_frame calls (NginxConfig.new g)).1]
  rfl

/-! ## Empty blocks -/

/-- C17: a block without entries renders to the empty string, whatever its class, name
and depth; as a child of a parent at depth d it is pushed as the optional spacer, 2*d
spaces, its name, a space and an opening brace, a newline, the empty body, a newline,
2*d spaces and a closing brace, so an empty line stands between the two braces. -/
theorem empty_block (cls : Cls) (name : String) (depth : Nat) (parent : Clause) :
    (Clause.mk cls name depth []).render = .ok "" ∧
    ∃ spacer : String, (spacer = "" ∨ spacer = "\n") ∧
      parent.emit (.clause (.mk cls name depth [])) =
        .ok (spacer ++ (String.mk (List.replicate (2 * parent.depth) ' ') ++ name ++ " \x7b" ++
          "\n" ++ "" ++ "\n" ++ String.mk (List.replicate (2 * parent.depth) ' ') ++ "\x7d")) := by
  have hr : (Clause.mk cls name depth []).render = .ok "" := by
    cases cls <;> rfl
  refine ⟨hr, if parent.isLocation = false ∧ parent.depth ≤ 1 then "\n" else "", ?_, ?_⟩
  · split
    · exact Or.inr rfl
    · exact Or.inl rfl
  · rw [Clause.emit_clause, hr, depthToWhitespace_eq]
    simp only [Except.map, Clause.name]
    congr 2
    apply String.ext
    simp [String.data_append]

/-! ## Joining and appending -/

theorem intercalate_go_append (sep : String) (as : List String) (acc x : String) :
    String.intercalate.go (acc ++ x) sep as = acc ++ String.intercalate.go x sep as := by
  induction as generalizing x with
  | nil => rfl
  | cons a as ih =>
    rw [String.intercalate.go, String.intercalate.go, ← ih]
    simp only [String.append_assoc]

theorem intercalate_cons_cons (sep x y : String) (r : List String) :
    String.intercalate sep (x :: y :: r) = x ++ sep ++ String.intercalate sep (y :: r) := by
  rw [String.intercalate, String.intercalate, String.intercalate.go, intercalate_go_append]

theorem intercalate_append (sep : String) (xs ys : List String) (hx : xs ≠ []) (hy : ys ≠ []) :
    String.intercalate sep (xs ++ ys) =
      String.intercalate sep xs ++ sep ++ String.intercalate sep ys := by
  induction xs with
  | nil => exact absurd rfl hx
  | cons x xs ih =>
    cases xs with
    | nil =>
      cases ys with
      | nil => exact absurd rfl hy
      | cons y r => exact intercalate_cons_cons sep x y r
    | cons x2 r =>
      rw [List.cons_append, List.cons_append, intercalate_cons_cons, ← List.cons_append,
        ih (List.cons_ne_nil _ _), intercalate_cons_cons]
      simp only [String.append_assoc]

theorem Clause.toString.forEach_append (spacer ws : String) (xs ys : List Entry) :
    Clause.toString.forEach spacer ws (xs ++ ys) =
      (Clause.toString.forEach spacer ws xs).bind (fun la =>
        (Clause.toString.forEach spacer ws ys).map (fun lb => la ++ lb)) := by
  induction xs with
  | nil =>
    rw [List.nil_append, Clause.toString.forEach]
    cases Clause.toString.forEach spacer ws ys <;> simp [Except.bind, Except.map]
  | cons e xs ih =>
    rw [List.cons_append, Clause.toString.forEach, Clause.toString.forEach, ih]
    cases Clause.toString.callback spacer ws e with
    | error err => simp [Except.bind]
    | ok text =>
      cases Clause.toString.forEach spacer ws xs with
      | error err => simp [Except.bind, Except.map]
      | ok la =>
        cases Clause.toString.forEach spacer ws ys <;> simp [Except.bind, Except.map]

theorem Location.toString.forEach_location_append (ws : String) (xs ys : List Entry) :
    Location.toString.forEach ws (xs ++ ys) =
      (Location.toString.forEach ws xs).bind (fun la =>
        (Location.toString.forEach ws ys).map (fun lb => la ++ lb)) := by
  induction xs with
  | nil =>
    rw [List.nil_append, Location.toString.forEach]
    cases Location.toString.forEach ws ys <;> simp [Except.bind, Except.map]
  | cons e xs ih =>
    rw [List.cons_append, Location.toString.forEach, Location.toString.forEach, ih]
    cases Location.toString.callback ws e with
    | error err => simp [Except.bind]
    | ok text =>
      cases Location.toString.forEach ws xs with
      | error err => simp [Except.bind, Except.map]
      | ok la =>
        cases Location.toString.forEach ws ys <;> simp [Except.bind, Except.map]

theorem Clause.lines_append (cls : Cls) (name : String) (d : Nat) (xs ys : List Entry) :
    (Clause.mk cls name d (xs ++ ys)).lines =
      (Clause.mk cls name d xs).lines.bind (fun la =>
        (Clause.mk cls name d ys).lines.map (fun lb => la ++ lb)) := by
  cases cls <;>
    simp only [Clause.lines, Clause.isLocation, Clause.cls, Clause.depth, Clause.entries,
      Clause.toString.forEach_append, Location.toString.forEach_location_append]

theorem Clause.lines_length (c : Clause) (ls : List String) (h : c.lines = .ok ls) :
    ls.length = c.entries.length :=
  ((Clause.lines_ok_iff c ls).mp h).length_eq.symm

theorem Clause.render_append (cls : Cls) (name : String) (d : Nat) (xs ys : List Entry)
    (hx : xs ≠ []) (hy : ys ≠ []) :
    (Clause.mk cls name d (xs ++ ys)).render =
      (Clause.mk cls name d xs).render.bind (fun a =>
        (Clause.mk cls name d ys).render.map (fun b => a ++ "\n" ++ b)) := by
  rw [Clause.render_eq_lines, Clause.render_eq_lines, Clause.render_eq_lines,
    Clause.lines_append]
  cases hla : (Clause.mk cls name d xs).lines with
  | error err => simp [Except.bind, Except.map]
  | ok la =>
    cases hlb : (Clause.mk cls name d ys).lines with
    | error err => simp [Except.bind, Except.map]
    | ok lb =>
      have h1 : la ≠ [] := by
        intro h
        have := Clause.lines_length _ la hla
        rw [h] at this
        simp [Clause.entries] at this
        exact hx (List.length_eq_zero.mp this.symm)
      have h2 : lb ≠ [] := by
        intro h
        have := Clause.lines_length _ lb hlb
        rw [h] at this
        simp [Clause.entries] at this
        exact hy (List.length_eq_zero.mp this.symm)
      simp only [Except.bind, Except.map]
      rw [intercalate_append "\n" la lb h1 h2]

theorem Clause.render_single_directive (cls : Cls) (name : String) (d : Nat) (dir : Directive) :
    (Clause.mk cls name d [.directive dir]).render = .ok (depthToWhitespace d ++ dir.toString) := by
  cases cls <;>
    simp [Clause.render, Clause.isLocation, Clause.cls, Clause.toString, Location.toString,
      Clause.toString.forEach, Location.toString.forEach, Clause.toString.callback,
      Location.toString.callback, Except.map, intercalate_singleton]

/-- C20: for a block of any class at depth d and two non-empty sequences of entries xs
and ys, the rendering with xs followed by ys is the rendering with xs, a newline and
the rendering with ys (and fails when one of the two fails); so appending the directive
(k, v) to a block that has entries and renders to `a` gives `a`, a newline, 2*d spaces,
k, a space, v and a semicolon. -/
theorem render_compositional (cls : Cls) (name : String) (d : Nat) (xs ys : List Entry)
    (hx : xs ≠ []) (hy : ys ≠ []) :
    (Clause.mk cls name d (xs ++ ys)).render =
      (Clause.mk cls name d xs).render.bind (fun a =>
        (Clause.mk cls name d ys).render.map (fun b => a ++ "\n" ++ b)) ∧
    (∀ a b : String, (Clause.mk cls name d xs).render = .ok a →
      (Clause.mk cls name d ys).render = .ok b →
      (Clause.mk cls name d (xs ++ ys)).render = .ok (a ++ "\n" ++ b)) ∧
    (∀ (k : String) (v : Value) (a : String), (Clause.mk cls name d xs).render = .ok a →
      ((Clause.mk cls name d xs).directive k v).render =
        .ok (a ++ "\n" ++ String.mk (List.replicate (2 * d) ' ') ++ k ++ " " ++ v.text ++ ";")) := by
  refine ⟨Clause.render_append cls name d xs ys hx hy, ?_, ?_⟩
  · intro a b ha hb
    rw [Clause.render_append cls name d xs ys hx hy, ha, hb]
    rfl
  · intro k v a ha
    have h1 : (Clause.mk cls name d xs).directive k v =
        Clause.mk cls name d (xs ++ [.directive ⟨k, v⟩]) := rfl
    rw [h1, Clause.render_append cls name d xs _ hx (List.cons_ne_nil _ _), ha,
      Clause.render_single_directive, depthToWhitespace_eq]
    simp only [Except.bind, Except.map, Directive.toString]
    congr 1
    simp only [String.append_assoc]

/-- C20 at the document that holds the directive user: with the events clause appended,
and with the directive pid appended. -/
theorem render_compositional_witness :
    ([Entry.directive ⟨"user", .str "ascari"⟩] ≠ [] ∧ [Entry.clause Events.clause] ≠ []) ∧
    (Clause.mk (.nginxConfig none) "root" 0 [.directive ⟨"user", .str "ascari"⟩]).render =
      .ok "user ascari;" ∧
    (Clause.mk (.nginxConfig none) "root" 0 [.clause Events.clause]).render =
      .ok "\nevents \x7b\n  worker_connections 768;\n\x7d" ∧
    (Clause.mk (.nginxConfig none) "root" 0
        ([.directive ⟨"user", .str "ascari"⟩] ++ [.clause Events.clause])).render =
      .ok ("user ascari;" ++ "\n" ++ "\nevents \x7b\n  worker_connections 768;\n\x7d") ∧
    ((Clause.mk (.nginxConfig none) "root" 0 [.directive ⟨"user", .str "ascari"⟩]).directive
        "pid" (.str "/run/nginx.pid")).render =
      .ok ("user ascari;" ++ "\n" ++ String.mk (List.replicate (2 * 0) ' ') ++ "pid" ++ " " ++
        (Value.str "/run/nginx.pid").text ++ ";") :=
  ⟨⟨by simp, by simp⟩, rfl, rfl,
    (render_compositional (.nginxConfig none) "root" 0 [.directive ⟨"user", .str "ascari"⟩]
      [.clause Events.clause] (by simp) (by simp)).2.1 _ _ rfl rfl,
    (render_compositional (.nginxConfig none) "root" 0 [.directive ⟨"user", .str "ascari"⟩]
      [.clause Events.clause] (by simp) (by simp)).2.2 "pid" (.str "/run/nginx.pid")
      "user ascari;" rfl⟩

/-! ## Counting braces -/

theorem count_intercalate_newline (ch : Char) (h : ch ≠ '\n') (texts : List String) :
    (String.intercalate "\n" texts).data.count ch =
      (texts.map (fun t => t.data.count ch)).sum := by
  induction texts with
  | nil => rfl
  | cons x r ih =>
    cases r with
    | nil => simp [intercalate_singleton]
    | cons y r =>
      rw [intercalate_cons_cons, String.data_append, String.data_append, List.count_append,
        List.count_append, ih]
      have h0 : List.count ch "\n".data = 0 := by
        apply List.count_eq_zero_of_not_mem
        simp [h]
      rw [h0]
      simp

theorem count_depthToWhitespace (ch : Char) (h : ch ≠ ' ') (d : Nat) :
    (depthToWhitespace d).data.count ch = 0 := by
  rw [depthToWhitespace_eq]
  apply List.count_eq_zero_of_not_mem
  intro hm
  exact h (List.eq_of_mem_replicate hm)

theorem Clause.avoids_of_mem_blocks (ch : Char) (c b : Clause) (hc : c.Avoids ch)
    (hb : b ∈ c.blocks) : b.Avoids ch :=
  fun b2 hb2 => hc b2 (Clause.blocks_trans c b hb b2 hb2)

theorem Clause.avoids_of_entry (ch : Char) (c child : Clause) (hc : c.Avoids ch)
    (he : Entry.clause child ∈ c.entries) : child.Avoids ch :=
  Clause.avoids_of_mem_blocks ch c child hc
    (Clause.mem_blocks_of_entry c child child he (Clause.self_mem_blocks child))

theorem Entry.avoids_directive (ch : Char) (d : Directive)
    (h : (Entry.directive d).avoids ch = true) : ch ∉ d.name.data ∧ ch ∉ d.value.text.data := by
  simpa [Entry.avoids] using h

theorem Entry.avoids_clause (ch : Char) (c : Clause)
    (h : (Entry.clause c).avoids ch = true) : ch ∉ c.name.data := by
  simpa [Entry.avoids] using h

theorem Clause.emit_clause_ok (parent child : Clause) (t : String)
    (h : parent.emit (.clause child) = .ok t) :
    ∃ body : String, child.render = .ok body ∧
      t = (if parent.isLocation = false ∧ parent.depth ≤ 1 then "\n" else "") ++
        (depthToWhitespace parent.depth ++ child.name ++ " \x7b\n" ++ body ++ "\n" ++
          depthToWhitespace parent.depth ++ "\x7d") := by
  rw [Clause.emit_clause] at h
  cases hr : child.render with
  | error err =>
    rw [hr] at h
    cases h
  | ok body =>
    rw [hr] at h
    cases h
    exact ⟨body, rfl, rfl⟩

theorem Clause.render_ok_texts (c : Clause) (s : String) (h : c.render = .ok s) :
    ∃ texts : List String, List.Forall₂ (fun e t => c.emit e = .ok t) c.entries texts ∧
      s = String.intercalate "\n" texts := by
  rw [Clause.render_eq_lines] at h
  cases hl : c.lines with
  | error err =>
    rw [hl] at h
    cases h
  | ok ls =>
    rw [hl] at h
    cases h
    exact ⟨ls, (Clause.lines_ok_iff c ls).mp hl, rfl⟩

theorem Clause.count_brace (ch : Char) (hch : ch = '\x7b' ∨ ch = '\x7d') (c : Clause) :
    c.Avoids ch → ∀ s : String, c.render = .ok s →
      s.data.count ch = (Entry.blocksOfList c.entries).length := by
  have hnl : ch ≠ '\n' := by rcases hch with h | h <;> rw [h] <;> decide
  have hsp : ch ≠ ' ' := by rcases hch with h | h <;> rw [h] <;> decide
  have hfix : ∀ sp : String, (sp = "" ∨ sp = "\n") →
      sp.data.count ch + (List.count ch [' ', '\x7b', '\n'] +
        (List.count ch ['\n'] + List.count ch ['\x7d'])) = 1 := by
    intro sp hsp2
    rcases hsp2 with h | h <;> rcases hch with h2 | h2 <;> rw [h, h2] <;> decide
  have hdir : List.count ch [' '] + List.count ch [';'] = 0 := by
    rcases hch with h | h <;> rw [h] <;> decide
  induction c using Clause.induction with
  | step cls name depth entries ih =>
    intro hav s hs
    obtain ⟨texts, hf, rfl⟩ := Clause.render_ok_texts _ s hs
    rw [count_intercalate_newline ch hnl]
    simp only [Clause.entries] at hf ⊢
    have key : ∀ (es : List Entry) (ts : List String),
        (∀ e ∈ es, e ∈ entries) →
        List.Forall₂ (fun e t => (Clause.mk cls name depth entries).emit e = .ok t) es ts →
        (ts.map (fun t => t.data.count ch)).sum = (Entry.blocksOfList es).length := by
      intro es ts hsub hfa
      induction hfa with
      | nil => rfl
      | @cons e t es ts he _ ih2 =>
        have hmem : e ∈ entries := hsub e (List.mem_cons_self _ _)
        have hrest := ih2 (fun x hx => hsub x (List.mem_cons_of_mem _ hx))
        have hea := hav _ (Clause.self_mem_blocks _) e hmem
        rw [List.map_cons, List.sum_cons, hrest, Entry.blocksOfList, List.length_append]
        congr 1
        cases e with
        | foreign =>
          rw [Clause.emit_foreign] at he
          cases he
        | directive d =>
          rw [Clause.emit_directive] at he
          cases he
          obtain ⟨h1, h2⟩ := Entry.avoids_directive ch d hea
          simp only [Entry.blocks, List.length_nil, Directive.toString, String.data_append,
            List.count_append, count_depthToWhitespace ch hsp,
            List.count_eq_zero_of_not_mem h1, List.count_eq_zero_of_not_mem h2]
          omega
        | clause child =>
          obtain ⟨body, hbody, rfl⟩ := Clause.emit_clause_ok _ child t he
          have hch2 : child.Avoids ch := Clause.avoids_of_entry ch _ child hav hmem
          have hcount := ih child hmem hch2 body hbody
          have hname := Entry.avoids_clause ch child hea
          have hsp3 := hfix (if (Clause.mk cls name depth entries).isLocation = false ∧
            (Clause.mk cls name depth entries).depth ≤ 1 then "\n" else "")
            (by split; exact Or.inr rfl; exact Or.inl rfl)
          simp only [Entry.blocks, Clause.blocks_eq child, List.length_cons, String.data_append,
            List.count_append, count_depthToWhitespace ch hsp,
            List.count_eq_zero_of_not_mem hname, hcount]
          omega
    exact key entries texts (fun e he => he) hf

/-- C18: when no name and no value below a block contains a brace, the text the block
renders to has as many opening as closing braces, and that number is the number of
blocks (Clauses and Locations) of the tree below the block; for the document this is
the whole tree below the root. -/
theorem brace_balance (c : Clause) (s : String) (hl : c.Avoids '\x7b') (hr : c.Avoids '\x7d')
    (hs : c.render = .ok s) :
    s.data.count '\x7b' = s.data.count '\x7d' ∧
    s.data.count '\x7b' = (Entry.blocksOfList c.entries).length ∧
    (Entry.blocksOfList c.entries).length + 1 = c.blocks.length := by
  have h1 := Clause.count_brace '\x7b' (Or.inl rfl) c hl s hs
  have h2 := Clause.count_brace '\x7d' (Or.inr rfl) c hr s hs
  refine ⟨h1.trans h2.symm, h1, ?_⟩
  rw [Clause.blocks_eq, List.length_cons]

/-- C18 at `Sample.document`: four blocks below the root, four braces of each kind. -/
theorem brace_balance_witness :
    Sample.document.Avoids '\x7b' ∧ Sample.document.Avoids '\x7d' ∧
    Sample.document.render = .ok Sample.text ∧
    Sample.text.data.count '\x7b' = Sample.text.data.count '\x7d' ∧
    Sample.text.data.count '\x7b' = (Entry.blocksOfList Sample.document.entries).length ∧
    (Entry.blocksOfList Sample.document.entries).length + 1 = Sample.document.blocks.length ∧
    (Entry.blocksOfList Sample.document.entries).length = 4 :=
  ⟨by decide, by decide, rfl,
    (brace_balance Sample.document Sample.text (by decide) (by decide) rfl).1,
    (brace_balance Sample.document Sample.text (by decide) (by decide) rfl).2.1,
    (brace_balance Sample.document Sample.text (by decide) (by decide) rfl).2.2, rfl⟩

/-! ## Lines and indentation -/

theorem splitOn_append_newline (a b : List Char) :
    (a ++ '\n' :: b).splitOn '\n' = a.splitOn '\n' ++ b.splitOn '\n' := by
  unfold List.splitOn
  induction a with
  | nil => simp [List.splitOnP_cons, List.splitOnP_nil]
  | cons x a ih =>
    rw [List.cons_append, List.splitOnP_cons, List.splitOnP_cons, ih]
    split
    · rfl
    · cases h : List.splitOnP (fun y => y == '\n') a with
      | nil => exact absurd h (List.splitOnP_ne_nil _ _)
      | cons l ls => rfl

theorem splitOn_of_no_newline (l : List Char) (h : '\n' ∉ l) : l.splitOn '\n' = [l] := by
  unfold List.splitOn
  apply List.splitOnP_eq_single
  intro x hx hp
  have : x = '\n' := by simpa using hp
  rw [this] at hx
  exact h hx

theorem IndentedBy.nil (k : Nat) : IndentedBy k [] := by
  intro line hl hne
  simp [List.splitOn, List.splitOnP_nil] at hl
  exact absurd hl hne

theorem IndentedBy.append_newline (k : Nat) (a b : List Char) (ha : IndentedBy k a)
    (hb : IndentedBy k b) : IndentedBy k (a ++ '\n' :: b) := by
  intro line hl hne
  rw [splitOn_append_newline] at hl
  rcases List.mem_append.mp hl with h | h
  · exact ha line h hne
  · exact hb line h hne

theorem IndentedBy.line (k : Nat) (rest : List Char) (h : '\n' ∉ rest) :
    IndentedBy k (List.replicate k ' ' ++ rest) := by
  intro line hl _
  have hno : '\n' ∉ List.replicate k ' ' ++ rest := by
    intro hm
    rcases List.mem_append.mp hm with h1 | h1
    · have := List.eq_of_mem_replicate h1
      exact absurd this (by decide)
    · exact h h1
  rw [splitOn_of_no_newline _ hno] at hl
  have : line = List.replicate k ' ' ++ rest := by simpa using hl
  rw [this]
  exact List.prefix_append _ _

theorem IndentedBy.mono (k m : Nat) (hkm : k ≤ m) (text : List Char) (h : IndentedBy m text) :
    IndentedBy k text := by
  intro line hl hne
  have h1 := h line hl hne
  have h2 : List.replicate k ' ' <+: List.replicate m ' ' := by
    refine ⟨List.replicate (m - k) ' ', ?_⟩
    rw [← List.replicate_add]
    congr 1
    omega
  exact h2.trans h1

theorem IndentedBy.intercalate (k : Nat) (texts : List String)
    (h : ∀ t ∈ texts, IndentedBy k t.data) :
    IndentedBy k (String.intercalate "\n" texts).data := by
  induction texts with
  | nil => exact IndentedBy.nil k
  | cons x r ih =>
    cases r with
    | nil =>
      rw [intercalate_singleton]
      exact h x (List.mem_cons_self _ _)
    | cons y r =>
      rw [intercalate_cons_cons]
      have hd : (x ++ "\n" ++ String.intercalate "\n" (y :: r)).data =
          x.data ++ '\n' :: (String.intercalate "\n" (y :: r)).data := by
        simp [String.data_append]
      rw [hd]
      exact IndentedBy.append_newline k _ _ (h x (List.mem_cons_self _ _))
        (ih (fun t ht => h t (List.mem_cons_of_mem _ ht)))

theorem IndentedBy.block (k : Nat) (sp name body : List Char) (hsp : sp = [] ∨ sp = ['\n'])
    (hname : '\n' ∉ name) (hbody : IndentedBy k body) :
    IndentedBy k (sp ++ (List.replicate k ' ' ++ name ++ [' ', '\x7b', '\n'] ++ body ++ ['\n'] ++
      List.replicate k ' ' ++ ['\x7d'])) := by
  have hhead : IndentedBy k (List.replicate k ' ' ++ (name ++ [' ', '\x7b'])) := by
    apply IndentedBy.line
    intro hm
    rcases List.mem_append.mp hm with h1 | h1
    · exact hname h1
    · simp at h1
  have hfoot : IndentedBy k (List.replicate k ' ' ++ ['\x7d']) := by
    apply IndentedBy.line
    simp
  have hmain : IndentedBy k ((List.replicate k ' ' ++ (name ++ [' ', '\x7b'])) ++
      '\n' :: (body ++ '\n' :: (List.replicate k ' ' ++ ['\x7d']))) :=
    IndentedBy.append_newline k _ _ hhead (IndentedBy.append_newline k _ _ hbody hfoot)
  have hshape : List.replicate k ' ' ++ name ++ [' ', '\x7b', '\n'] ++ body ++ ['\n'] ++
      List.replicate k ' ' ++ ['\x7d'] =
      (List.replicate k ' ' ++ (name ++ [' ', '\x7b'])) ++
        '\n' :: (body ++ '\n' :: (List.replicate k ' ' ++ ['\x7d'])) := by
    simp [List.append_assoc]
  rw [hshape]
  rcases hsp with h | h
  · rw [h, List.nil_append]
    exact hmain
  · rw [h]
    exact IndentedBy.append_newline k [] _ (IndentedBy.nil k) hmain

theorem forall₂_mem_right {α β : Type} {R : α → β → Prop} {xs : List α} {ys : List β}
    (h : List.Forall₂ R xs ys) (y : β) (hy : y ∈ ys) : ∃ x ∈ xs, R x y := by
  induction h with
  | nil => simp at hy
  | @cons a b as bs hab _ ih =>
    rcases List.mem_cons.mp hy with h1 | h1
    · exact ⟨a, List.mem_cons_self _ _, h1 ▸ hab⟩
    · obtain ⟨x, hx, hr⟩ := ih h1
      exact ⟨x, List.mem_cons_of_mem _ hx, hr⟩

theorem Clause.depthRule_of_entry (c child : Clause) (hc : c.DepthRule)
    (he : Entry.clause child ∈ c.entries) : child.DepthRule ∧ child.depth = c.depth + 1 := by
  refine ⟨?_, hc c (Clause.self_mem_blocks c) child he⟩
  intro owner ho
  exact hc owner (Clause.blocks_trans c child
    (Clause.mem_blocks_of_entry c child child he (Clause.self_mem_blocks child)) owner ho)

theorem Clause.indented (c : Clause) :
    c.DepthRule → c.Avoids '\n' → ∀ s : String, c.render = .ok s →
      IndentedBy (2 * c.depth) s.data := by
  induction c using Clause.induction with
  | step cls name depth entries ih =>
    intro hd hn s hs
    obtain ⟨texts, hf, rfl⟩ := Clause.render_ok_texts _ s hs
    apply IndentedBy.intercalate
    intro t ht
    obtain ⟨e, hmem, he⟩ := forall₂_mem_right hf t ht
    simp only [Clause.entries] at hmem
    have hea := hn _ (Clause.self_mem_blocks _) e hmem
    simp only [Clause.depth]
    cases e with
    | foreign =>
      rw [Clause.emit_foreign] at he
      cases he
    | directive d =>
      rw [Clause.emit_directive] at he
      cases he
      obtain ⟨h1, h2⟩ := Entry.avoids_directive '\n' d hea
      have hdata : (depthToWhitespace (Clause.mk cls name depth entries).depth ++ d.toString).data =
          List.replicate (2 * depth) ' ' ++
            (d.name.data ++ [' '] ++ d.value.text.data ++ [';']) := by
        simp [String.data_append, depthToWhitespace_eq, Directive.toString, Clause.depth]
      rw [hdata]
      apply IndentedBy.line
      simp [h1, h2]
    | clause child =>
      obtain ⟨body, hbody, rfl⟩ := Clause.emit_clause_ok _ child t he
      obtain ⟨hcd, hdepth⟩ := Clause.depthRule_of_entry _ child hd hmem
      have hca : child.Avoids '\n' := Clause.avoids_of_entry '\n' _ child hn hmem
      have hib := ih child hmem hcd hca body hbody
      have hname := Entry.avoids_clause '\n' child hea
      have hdepth2 : child.depth = depth + 1 := hdepth
      have hib2 : IndentedBy (2 * depth) body.data :=
        IndentedBy.mono _ _ (by omega) _ hib
      have hblock := IndentedBy.block (2 * depth)
        (if (Clause.mk cls name depth entries).isLocation = false ∧
          (Clause.mk cls name depth entries).depth ≤ 1 then "\n" else "").data
        child.name.data body.data (by split; exact Or.inr rfl; exact Or.inl rfl) hname hib2
      have hdata : ((if (Clause.mk cls name depth entries).isLocation = false ∧
            (Clause.mk cls name depth entries).depth ≤ 1 then "\n" else "") ++
          (depthToWhitespace (Clause.mk cls name depth entries).depth ++ child.name ++ " \x7b\n" ++
            body ++ "\n" ++ depthToWhitespace (Clause.mk cls name depth entries).depth ++
            "\x7d")).data =
          (if (Clause.mk cls name depth entries).isLocation = false ∧
            (Clause.mk cls name depth entries).depth ≤ 1 then "\n" else "").data ++
          (List.replicate (2 * depth) ' ' ++ child.name.data ++ [' ', '\x7b', '\n'] ++ body.data ++
            ['\n'] ++ List.replicate (2 * depth) ' ' ++ ['\x7d']) := by
        simp [String.data_append, depthToWhitespace_eq, Clause.depth]
      rw [hdata]
      exact hblock

/-- C19: for a block at depth d whose tree keeps the depth rule (each child block one
level deeper than its owner) and has no newline in a name or a value, every non-empty
line of the text the block renders to starts with at least 2*d spaces. -/
theorem indentation_lower_bound (c : Clause) (s : String) (hd : c.DepthRule)
    (hn : c.Avoids '\n') (hs : c.render = .ok s) :
    ∀ line ∈ s.data.splitOn '\n', line ≠ [] → List.replicate (2 * c.depth) ' ' <+: line :=
  Clause.indented c hd hn s hs

/-- C19 at the http clause of `Sample.document`, depth 1, for the line of the directive
listen inside its server clause. -/
theorem indentation_lower_bound_witness :
    Sample.http.DepthRule ∧ Sample.http.Avoids '\n' ∧
    Sample.http.render = .ok Sample.httpText ∧
    "    listen 80;".data ∈ Sample.httpText.data.splitOn '\n' ∧
    "    listen 80;".data ≠ [] ∧
    List.replicate (2 * Sample.http.depth) ' ' <+: "    listen 80;".data :=
  ⟨(Op.runAll_depthRule _ (Clause.new "http" 1) (Clause.depthRule_new _ _ _)).1,
    by decide, rfl, by decide, by decide,
    indentation_lower_bound Sample.http Sample.httpText
      (Op.runAll_depthRule _ (Clause.new "http" 1) (Clause.depthRule_new _ _ _)).1
      (by decide) rfl "    listen 80;".data (by decide) (by decide)⟩

/-! ## Frame of the builder methods -/

theorem Op.run_entries_prefix (op : Op) (c : Clause) : c.entries <+: (op.run c).entries := by
  cases op <;> rw [Op.run] <;>
    simp only [Clause.clause, Clause.location, Clause.directive, Clause.cl, Clause.loc,
      Clause.dir, Clause.push_entries] <;>
    exact List.prefix_append _ _

theorem Op.runAll_entries_prefix (ops : List Op) (c : Clause) :
    c.entries <+: (Op.runAll ops c).entries := by
  induction ops generalizing c with
  | nil =>
    rw [Op.runAll]
  | cons op ops ih =>
    rw [Op.runAll]
    exact (Op.run_entries_prefix op c).trans (ih _)

/-- C10 fails when the callback acts on the receiver: after
`nc.clause('a', c => { nc.directive('x', 'y') })` on a fresh document the document has
two more entries, the directive and then the clause, so its entries are not the earlier
ones followed by one entry. -/
theorem Reentrant.clause_appends_two_entries :
    (createInstance.clauseReentrant "a" Reentrant.callback).entries =
      [.directive ⟨"x", .str "y"⟩, .clause (Clause.new "a" 1)] ∧
    (createInstance.clauseReentrant "a" Reentrant.callback).entries.length =
      createInstance.entries.length + 2 ∧
    (¬ ∃ e : Entry, (createInstance.clauseReentrant "a" Reentrant.callback).entries =
      createInstance.entries ++ [e]) ∧
    (createInstance.clauseReentrant "a" Reentrant.callback).render =
      .ok "x y;\n\na \x7b\n\n\x7d" := by
  refine ⟨rfl, rfl, ?_, rfl⟩
  rintro ⟨e, h⟩
  have hlen := congrArg List.length h
  have h2 : (createInstance.clauseReentrant "a" Reentrant.callback).entries.length = 2 := rfl
  have h1 : (createInstance.entries ++ [e]).length = 1 := rfl
  rw [h2, h1] at hlen
  exact absurd hlen (by decide)

/-- C10, amended: `directive` returns the receiver with its class, name and depth
unchanged and the Directive of the arguments appended after the entries it had.
`clause` and `location` create the child (the new Clause of that name, the new Location
of that path) one level deeper and without entries, run the callback, and then append
the child, as the callback left it, after the entries the receiver has when the
callback returns; the receiver is otherwise as the callback left it.  With a callback
that acts on the child only, exactly that one entry is appended and class, name, depth
and earlier entries are unchanged; with a callback that makes builder calls on the
receiver and on the child, class, name and depth are unchanged, the earlier entries
stay first and the child is last. -/
theorem builder_frame (P : Clause) (name path : String) (value : Value)
    (configure : Clause → Clause) (reach : Clause → Clause → Clause × Clause)
    (onReceiver onChild : List Op) :
    ((P.directive name value).cls = P.cls ∧ (P.directive name value).name = P.name ∧
      (P.directive name value).depth = P.depth ∧
      (P.directive name value).entries = P.entries ++ [.directive ⟨name, value⟩]) ∧
    ((P.clause name configure).cls = P.cls ∧ (P.clause name configure).name = P.name ∧
      (P.clause name configure).depth = P.depth ∧
      (P.clause name configure).entries =
        P.entries ++ [.clause (configure (.mk .clause name (P.depth + 1) []))]) ∧
    ((P.location path configure).cls = P.cls ∧ (P.location path configure).name = P.name ∧
      (P.location path configure).depth = P.depth ∧
      (P.location path configure).entries =
        P.entries ++
          [.clause (configure (.mk (.location path) ("location " ++ path) (P.depth + 1) []))]) ∧
    ((P.clauseReentrant name reach).cls = (reach P (.mk .clause name (P.depth + 1) [])).1.cls ∧
      (P.clauseReentrant name reach).name = (reach P (.mk .clause name (P.depth + 1) [])).1.name ∧
      (P.clauseReentrant name reach).depth =
        (reach P (.mk .clause name (P.depth + 1) [])).1.depth ∧
      (P.clauseReentrant name reach).entries =
        (reach P (.mk .clause name (P.depth + 1) [])).1.entries ++
          [.clause (reach P (.mk .clause name (P.depth + 1) [])).2]) ∧
    ((P.locationReentrant path reach).cls =
        (reach P (.mk (.location path) ("location " ++ path) (P.depth + 1) [])).1.cls ∧
      (P.locationReentrant path reach).name =
        (reach P (.mk (.location path) ("location " ++ path) (P.depth + 1) [])).1.name ∧
      (P.locationReentrant path reach).depth =
        (reach P (.mk (.location path) ("location " ++ path) (P.depth + 1) [])).1.depth ∧
      (P.locationReentrant path reach).entries =
        (reach P (.mk (.location path) ("location " ++ path) (P.depth + 1) [])).1.entries ++
          [.clause (reach P (.mk (.location path) ("location " ++ path) (P.depth + 1) [])).2]) ∧
    (P.clause name configure =
        P.clauseReentrant name (fun receiver child => (receiver, configure child)) ∧
      P.location path configure =
        P.locationReentrant path (fun receiver child => (receiver, configure child))) ∧
    ((P.clauseReentrant name
          (fun receiver child => (Op.runAll onReceiver receiver, Op.runAll onChild child))).cls =
        P.cls ∧
      (P.clauseReentrant name
          (fun receiver child => (Op.runAll onReceiver receiver, Op.runAll onChild child))).name =
        P.name ∧
      (P.clauseReentrant name
          (fun receiver child => (Op.runAll onReceiver receiver, Op.runAll onChild child))).depth =
        P.depth ∧
      P.entries <+: (P.clauseReentrant name
          (fun receiver child =>
            (Op.runAll onReceiver receiver, Op.runAll onChild child))).entries ∧
      (P.clauseReentrant name
          (fun receiver child =>
            (Op.runAll onReceiver receiver, Op.runAll onChild child))).entries =
        (Op.runAll onReceiver P).entries ++
          [.clause (Op.runAll onChild (.mk .clause name (P.depth + 1) []))]) ∧
    ((P.locationReentrant path
          (fun receiver child => (Op.runAll onReceiver receiver, Op.runAll onChild child))).cls =
        P.cls ∧
      (P.locationReentrant path
          (fun receiver child => (Op.runAll onReceiver receiver, Op.runAll onChild child))).name =
        P.name ∧
      (P.locationReentrant path
          (fun receiver child => (Op.runAll onReceiver receiver, Op.runAll onChild child))).depth =
        P.depth ∧
      P.entries <+: (P.locationReentrant path
          (fun receiver child =>
            (Op.runAll onReceiver receiver, Op.runAll onChild child))).entries ∧
      (P.locationReentrant path
          (fun receiver child =>
            (Op.runAll onReceiver receiver, Op.runAll onChild child))).entries =
        (Op.runAll onReceiver P).entries ++
          [.clause (Op.runAll onChild
            (.mk (.location path) ("location " ++ path) (P.depth + 1) []))]) := by
  have hf := Op.runAll_frame onReceiver P
  have hp := Op.runAll_entries_prefix onReceiver P
  refine ⟨?_, ?_, ?_, ?_, ?_, ⟨rfl, rfl⟩, ?_, ?_⟩
  · cases P
    exact ⟨rfl, rfl, rfl, rfl⟩
  · cases P
    exact ⟨rfl, rfl, rfl, rfl⟩
  · cases P
    exact ⟨rfl, rfl, rfl, rfl⟩
  · exact ⟨Clause.push_cls _ _, Clause.push_name _ _, Clause.push_depth _ _,
      Clause.push_entries _ _⟩
  · exact ⟨Clause.push_cls _ _, Clause.push_name _ _, Clause.push_depth _ _,
      Clause.push_entries _ _⟩
  · refine ⟨(Clause.push_cls _ _).trans hf.1, (Clause.push_name _ _).trans hf.2.1,
      (Clause.push_depth _ _).trans hf.2.2, ?_, Clause.push_entries _ _⟩
    exact hp.trans ⟨_, (Clause.push_entries _ _).symm⟩
  · refine ⟨(Clause.push_cls _ _).trans hf.1, (Clause.push_name _ _).trans hf.2.1,
      (Clause.push_depth _ _).trans hf.2.2, ?_, Clause.push_entries _ _⟩
    exact hp.trans ⟨_, (Clause.push_entries _ _).symm⟩

end Nginxc
